import Mathlib

/-!
# Verification of the arXivDaily feed/recommendation core

Shallow embedding of the similarity-ranking and tag-grouping pipeline of the
arXivDaily web application (files `app/feed.py`, `app/services/paper_store.py`,
`app/services/recommendations.py`, `app/services/favorites.py`), together with
proofs and refutations of the specification's claims about it.

Modelling conventions:
* Python's dynamically typed JSON-like values are the inductive `PyVal`.
* Python numbers (ints and floats) are modelled as rationals `ℚ` at parsing
  boundaries; the single operation that leaves `ℚ` (the square root inside
  cosine similarity) produces a real number, so similarity scores are `ℝ`
  (or a generic linearly ordered field where only ordering matters).
  Float rounding, `NaN` and `inf` are outside the model: `float("nan")`,
  `float("inf")` and the JSON extensions `NaN`/`Infinity` are modelled as
  parse failures.
* Python exceptions are `Except String`; the error string names the Python
  exception class.
* Python's stable `list.sort(key=...)` is modelled by `List.insertionSort`
  with the reflexive comparison on keys (insertion before the first
  greater-or-equal element is exactly stable sorting);
  `reverse=True` flips the key comparison, which matches CPython's
  reverse-stable behaviour.
-/

namespace ArxivDaily

/-- A Python/JSON value.  `vdict` keeps insertion order, as Python dicts do. -/
inductive PyVal : Type where
  | vnone : PyVal
  | vbool : Bool → PyVal
  | vnum : ℚ → PyVal
  | vstr : String → PyVal
  | vlist : List PyVal → PyVal
  | vdict : List (String × PyVal) → PyVal

open PyVal

/-- Python truthiness (`bool(v)`). -/
def pyTruthy : PyVal → Bool
  | vnone => false
  | vbool b => b
  | vnum q => q ≠ 0
  | vstr s => s ≠ ""
  | vlist xs => !xs.isEmpty
  | vdict d => !d.isEmpty

/-- Python `a or b` (returns the first truthy operand, else the second). -/
def pyOr (a b : PyVal) : PyVal := if pyTruthy a then a else b

/-- Python `str(v)`.  Faithful on the cases the pipeline ever stringifies
(strings, `None`, booleans, integers); the textual form of non-integral
numbers, lists and dicts is abbreviated, which no theorem below depends on. -/
def pyStr : PyVal → String
  | vstr s => s
  | vnone => "None"
  | vbool b => if b then "True" else "False"
  | vnum q =>
      if q.den = 1 then
        (if q.num < 0 then "-" ++ toString q.num.natAbs else toString q.num.natAbs)
      else toString q
  | vlist _ => "[...]"
  | vdict _ => "\x7b...\x7d"

/-- Python `str.strip()`: remove leading and trailing whitespace. -/
def pyStrip (s : String) : String :=
  ⟨((s.data.dropWhile Char.isWhitespace).reverse.dropWhile Char.isWhitespace).reverse⟩

/-! ## Python dicts

A Python dict is an insertion-ordered association list with unique keys:
assignment to an existing key replaces the value in place, assignment to a
fresh key appends. -/

/-- A paper record (or any JSON object) as a Python dict. -/
abbrev PyDict := List (String × PyVal)

/-- Dictionary lookup: the value bound to the first occurrence of the key. -/
def passocGet {β : Type} (m : List (String × β)) (k : String) : Option β :=
  (m.find? (fun q => q.1 = k)).map (·.2)

/-- Dictionary assignment: replace the first binding of the key in place,
else append. -/
def passocSet {β : Type} : List (String × β) → String → β → List (String × β)
  | [], k, v => [(k, v)]
  | p :: m, k, v => if p.1 = k then (k, v) :: m else p :: passocSet m k v

/-- `d.get(k)` without default: `some` value or `none`. -/
def dget (d : PyDict) (k : String) : Option PyVal := passocGet d k

/-- `d.get(k)` as Python sees it: `None` when the key is absent. -/
def dgetD (d : PyDict) (k : String) : PyVal := (dget d k).getD vnone

/-- `d[k] = v` on a paper record. -/
def dset (d : PyDict) (k : String) (v : PyVal) : PyDict := passocSet d k v

/-! ## A model of `json.loads`

A recursive-descent JSON parser over `List Char`, driven by fuel (the input
length suffices).  Strict JSON per RFC 8259: double-quoted strings with the
standard escapes, numbers without leading zeros, `true`/`false`/`null`,
arrays and objects.  The CPython extensions `NaN`/`Infinity` are not
recognised (they never occur in this repository's data). -/

/-- Decimal digit value of a character, if any. -/
def digit? (c : Char) : Option Nat :=
  if c = '0' then some 0 else if c = '1' then some 1 else if c = '2' then some 2
  else if c = '3' then some 3 else if c = '4' then some 4 else if c = '5' then some 5
  else if c = '6' then some 6 else if c = '7' then some 7 else if c = '8' then some 8
  else if c = '9' then some 9 else none

/-- JSON insignificant whitespace. -/
def isJsonWs (c : Char) : Bool := c = ' ' ∨ c = '\t' ∨ c = '\n' ∨ c = '\r'

def skipWs (cs : List Char) : List Char := cs.dropWhile isJsonWs

/-- Parse a run of decimal digits into (value, count, rest). -/
def parseDigits : List Char → Nat × Nat × List Char
  | [] => (0, 0, [])
  | c :: cs =>
    match digit? c with
    | some d =>
        let (v, n, rest) := parseDigits cs
        (d * 10 ^ n + v, n + 1, rest)
    | none => (0, 0, c :: cs)

/-- Hexadecimal digit value of a character, if any (for `\uXXXX` escapes). -/
def hexDigit? (c : Char) : Option Nat :=
  match digit? c with
  | some d => some d
  | none =>
    if c = 'a' ∨ c = 'A' then some 10 else if c = 'b' ∨ c = 'B' then some 11
    else if c = 'c' ∨ c = 'C' then some 12 else if c = 'd' ∨ c = 'D' then some 13
    else if c = 'e' ∨ c = 'E' then some 14 else if c = 'f' ∨ c = 'F' then some 15
    else none

/-- Parse the body of a JSON string literal (after the opening quote). -/
def parseJsonString : Nat → List Char → Option (List Char × List Char)
  | 0, _ => none
  | _, [] => none
  | fuel + 1, c :: cs =>
    if c = '"' then some ([], cs)
    else if c = '\\' then
      match cs with
      | [] => none
      | e :: cs' =>
        let simple : Option Char :=
          if e = '"' then some '"' else if e = '\\' then some '\\'
          else if e = '/' then some '/' else if e = 'n' then some '\n'
          else if e = 't' then some '\t' else if e = 'r' then some '\r'
          else if e = 'b' then some (Char.ofNat 8) else if e = 'f' then some (Char.ofNat 12)
          else none
        match simple with
        | some ch =>
          match parseJsonString fuel cs' with
          | some (body, rest) => some (ch :: body, rest)
          | none => none
        | none =>
          if e = 'u' then
            match cs' with
            | h1 :: h2 :: h3 :: h4 :: cs'' =>
              match hexDigit? h1, hexDigit? h2, hexDigit? h3, hexDigit? h4 with
              | some a, some b, some c', some d =>
                match parseJsonString fuel cs'' with
                | some (body, rest) =>
                    some (Char.ofNat (a * 4096 + b * 256 + c' * 16 + d) :: body, rest)
                | none => none
              | _, _, _, _ => none
            | _ => none
          else none
    else
      match parseJsonString fuel cs with
      | some (body, rest) => some (c :: body, rest)
      | none => none

/-- `10^n` as a rational, computed in `Nat` so the kernel reduces it. -/
def pow10 (n : Nat) : ℚ := ((10 ^ n : Nat) : ℚ)

/-- Scale a mantissa by `10^e` for a signed exponent. -/
def scale10 (m : ℚ) (e : ℤ) : ℚ :=
  if 0 ≤ e then m * pow10 e.toNat else m / pow10 (-e).toNat

/-- Parse a JSON number (RFC 8259 grammar) into a rational. -/
def parseJsonNumber (cs : List Char) : Option (ℚ × List Char) :=
  let (neg, cs₁) := match cs with
    | '-' :: rest => (true, rest)
    | _ => (false, cs)
  let (ival, icount, cs₂) := parseDigits cs₁
  if icount = 0 then none
  else if 1 < icount ∧ cs₁.head? = some '0' then none
  else
    let (fval, fcount, cs₃) := match cs₂ with
      | '.' :: rest =>
          let (v, n, r) := parseDigits rest
          (v, n, r)
      | _ => (0, 0, cs₂)
    if cs₂.head? = some '.' ∧ fcount = 0 then none
    else
      let mantissa : ℚ := (ival : ℚ) + (fval : ℚ) / pow10 fcount
      let parseExp : Option (ℤ × List Char) := match cs₃ with
        | 'e' :: rest | 'E' :: rest =>
          let (esign, rest') := match rest with
            | '-' :: r => ((-1 : ℤ), r)
            | '+' :: r => ((1 : ℤ), r)
            | _ => ((1 : ℤ), rest)
          let (ev, en, rest'') := parseDigits rest'
          if en = 0 then none else some (esign * ev, rest'')
        | _ => some (0, cs₃)
      match parseExp with
      | none => none
      | some (e, cs₄) =>
        let v : ℚ := scale10 mantissa e
        some (if neg then -v else v, cs₄)

/-- What the JSON parser is currently parsing. -/
inductive JTask : Type where
  | value : JTask
  | arrayTail : List PyVal → JTask
  | objectTail : List (String × PyVal) → JTask
  | member : JTask

/-- A parse result: a value, or one `"key": value` object member. -/
inductive JOut : Type where
  | val : PyVal → JOut
  | mem : String → PyVal → JOut

/-- The recursive-descent core, one structurally recursive function on the
fuel so that the kernel can evaluate it.  `value` parses one JSON value
(leading whitespace already skipped); `arrayTail`/`objectTail` parse the
`, item`* continuations; `member` parses one object member.  As in Python,
a repeated object key overwrites the earlier binding. -/
def parseJson : Nat → JTask → List Char → Option (JOut × List Char)
  | 0, _, _ => none
  | fuel + 1, .value, cs =>
    match cs with
    | [] => none
    | c :: rest =>
      if c = '"' then
        match parseJsonString (fuel + 1) rest with
        | some (body, rest') => some (.val (vstr ⟨body⟩), rest')
        | none => none
      else if c = '[' then
        match skipWs rest with
        | ']' :: rest' => some (.val (vlist []), rest')
        | cs' =>
          match parseJson fuel .value cs' with
          | some (.val v, rest') => parseJson fuel (.arrayTail [v]) (skipWs rest')
          | _ => none
      else if c = '\x7b' then
        match skipWs rest with
        | '\x7d' :: rest' => some (.val (vdict []), rest')
        | cs' =>
          match parseJson fuel .member cs' with
          | some (.mem k v, rest') => parseJson fuel (.objectTail [(k, v)]) (skipWs rest')
          | _ => none
      else if c = 't' then
        match cs with
        | 't' :: 'r' :: 'u' :: 'e' :: rest' => some (.val (vbool true), rest')
        | _ => none
      else if c = 'f' then
        match cs with
        | 'f' :: 'a' :: 'l' :: 's' :: 'e' :: rest' => some (.val (vbool false), rest')
        | _ => none
      else if c = 'n' then
        match cs with
        | 'n' :: 'u' :: 'l' :: 'l' :: rest' => some (.val vnone, rest')
        | _ => none
      else
        match parseJsonNumber cs with
        | some (q, rest') => some (.val (vnum q), rest')
        | none => none
  | fuel + 1, .arrayTail acc, cs =>
    match cs with
    | ']' :: rest => some (.val (vlist acc), rest)
    | ',' :: rest =>
      match parseJson fuel .value (skipWs rest) with
      | some (.val v, rest') => parseJson fuel (.arrayTail (acc ++ [v])) (skipWs rest')
      | _ => none
    | _ => none
  | fuel + 1, .objectTail acc, cs =>
    match cs with
    | '\x7d' :: rest => some (.val (vdict acc), rest)
    | ',' :: rest =>
      match parseJson fuel .member (skipWs rest) with
      | some (.mem k v, rest') => parseJson fuel (.objectTail (dset acc k v)) (skipWs rest')
      | _ => none
    | _ => none
  | fuel + 1, .member, cs =>
    match cs with
    | '"' :: rest =>
      match parseJsonString (fuel + 1) rest with
      | none => none
      | some (key, rest') =>
        match skipWs rest' with
        | ':' :: rest2 =>
          match parseJson fuel .value (skipWs rest2) with
          | some (.val v, rest3) => some (.mem ⟨key⟩ v, rest3)
          | _ => none
        | _ => none
    | _ => none

/-- Model of `json.loads` on a string: `some` on valid JSON documents,
`none` where CPython raises `json.JSONDecodeError`. -/
def jsonLoads (s : String) : Option PyVal :=
  match parseJson (s.length + 1) .value (skipWs s.data) with
  | some (.val v, rest) => if skipWs rest = [] then some v else none
  | _ => none

/-! ## A model of Python `float()` -/

/-- The numeric-string grammar of `float(str)`: optional surrounding
whitespace, an optional sign, then digits with an optional decimal point
(at least one digit overall) and an optional exponent.  `inf`, `nan` and
underscore separators are outside the model (see the module docstring). -/
def floatOfString (s : String) : Option ℚ :=
  let cs := (s.data.dropWhile Char.isWhitespace).reverse.dropWhile Char.isWhitespace |>.reverse
  let (neg, cs₁) := match cs with
    | '-' :: rest => (true, rest)
    | '+' :: rest => (false, rest)
    | _ => (false, cs)
  let (ival, icount, cs₂) := parseDigits cs₁
  let (fval, fcount, cs₃) := match cs₂ with
    | '.' :: rest =>
        let (v, n, r) := parseDigits rest
        (v, n, r)
    | _ => (0, 0, cs₂)
  if icount = 0 ∧ fcount = 0 then none
  else
    let mantissa : ℚ := (ival : ℚ) + (fval : ℚ) / pow10 fcount
    let expPart : Option ℤ := match cs₃ with
      | [] => some 0
      | 'e' :: rest | 'E' :: rest =>
        let (esign, rest') := match rest with
          | '-' :: r => ((-1 : ℤ), r)
          | '+' :: r => ((1 : ℤ), r)
          | _ => ((1 : ℤ), rest)
        let (ev, en, rest'') := parseDigits rest'
        if en = 0 ∨ rest'' ≠ [] then none else some (esign * ev)
      | _ => none
    match expPart with
    | none => none
    | some e => some ((if neg then -1 else 1) * scale10 mantissa e)

/-- Python `float(x)` on a value: numbers and booleans convert, numeric
strings parse, everything else raises (`TypeError`/`ValueError`). -/
def pyFloat : PyVal → Except String ℚ
  | vnum q => .ok q
  | vbool b => .ok (if b then 1 else 0)
  | vstr s =>
    match floatOfString s with
    | some q => .ok q
    | none => .error "ValueError"
  | vnone => .error "TypeError"
  | vlist _ => .error "TypeError"
  | vdict _ => .error "TypeError"

/-! ## Embedding math (`app/services/recommendations.py`) -/

/-- The comprehension `[float(x) for x in raw]`: left to right, raising at
the first non-convertible element. -/
def pyFloatList : List PyVal → Except String (List ℚ)
  | [] => .ok []
  | x :: xs =>
    match pyFloat x with
    | .error e => .error e
    | .ok q =>
      match pyFloatList xs with
      | .error e => .error e
      | .ok qs => .ok (q :: qs)

/-- `recommendations.parse_embedding`: `None` for `None`; a float list for a
list/tuple or for a string that JSON-decodes to one (propagating the
exception `float` raises on a non-convertible element); `None` for a string
that fails to decode or decodes to a non-sequence; `None` for anything else. -/
def parse_embedding : PyVal → Except String (Option (List ℚ))
  | vnone => .ok none
  | vlist xs => (pyFloatList xs).map some
  | vstr s =>
    match jsonLoads s with
    | none => .ok none
    | some (vlist xs) => (pyFloatList xs).map some
    | some _ => .ok none
  | _ => .ok none

/-- `paper_store._parse_embedding`: `None` for `None`; the list itself for a
list/tuple; for a string, the decoded list if it JSON-decodes to one,
otherwise the raw string; any other value is returned unchanged. -/
def ps_parse_embedding : PyVal → PyVal
  | vnone => vnone
  | vlist xs => vlist xs
  | vstr s =>
    match jsonLoads s with
    | some (vlist xs) => vlist xs
    | _ => vstr s
  | v => v

/-- `_mean_vector` (textually identical in `recommendations.py` and
`favorites.py`): coordinate-wise mean over the vectors whose length matches
the first vector's, `None` for the empty input (the `count == 0` fallback of
the source is unreachable otherwise, since the first vector matches itself). -/
def mean_vector (vectors : List (List ℚ)) : Option (List ℚ) :=
  match vectors with
  | [] => none
  | v₀ :: _ =>
    let length := v₀.length
    let (totals, count) := vectors.foldl
      (fun (acc : List ℚ × Nat) vec =>
        if vec.length ≠ length then acc
        else (acc.1.zipWith (· + ·) vec, acc.2 + 1))
      (List.replicate length 0, 0)
    if count = 0 then none
    else some (totals.map (fun val => val / (count : ℚ)))

/-- Python `max(scores)` guarded by `if scores else None`. -/
def pyMax {α : Type} [LinearOrder α] : List α → Option α
  | [] => none
  | x :: xs => some (xs.foldl max x)

/-- `recommendations.cosine_similarity`: 0 if either vector is empty or the
lengths differ or either norm is zero, otherwise dot product over the product
of the Euclidean norms.  The square root forces the result out of `ℚ`. -/
noncomputable def cosine_similarity (vec1 vec2 : List ℚ) : ℝ :=
  if vec1.isEmpty ∨ vec2.isEmpty ∨ vec1.length ≠ vec2.length then 0
  else
    let dot : ℚ := (List.zipWith (· * ·) vec1 vec2).sum
    let norm1 : ℝ := Real.sqrt ((vec1.map (fun a => a * a)).sum : ℚ)
    let norm2 : ℝ := Real.sqrt ((vec2.map (fun b => b * b)).sum : ℚ)
    if norm1 = 0 ∨ norm2 = 0 then 0
    else (dot : ℝ) / (norm1 * norm2)

/-! ## Paper store (`app/services/paper_store.py`) -/

/-- `_normalize_paper`: copy the record, normalise `id` (falling back to
`paper_id`, stringified and stripped), normalise `tags` (JSON-decode or
comma-split a string form, wrap non-list forms, then stringify/strip each
entry and drop empties), parse `embedding`, and stringify truthy
`pub_date`/`created_at`. -/
def normalize_paper (raw : PyDict) : PyDict :=
  let paper := raw
  let idStr := pyStrip (pyStr (pyOr (pyOr (dgetD paper "id") (dgetD paper "paper_id")) (vstr "")))
  let paper := dset paper "id" (vstr idStr)
  let tagsRaw := dgetD paper "tags"
  let tagsRaw := match tagsRaw with
    | vstr s =>
      match jsonLoads s with
      | some v => v
      | none => vlist ((s.splitOn ",").filterMap fun t =>
          let t' := pyStrip t
          if t' = "" then none else some (vstr t'))
    | v => v
  let tagsList : List PyVal := match tagsRaw with
    | vnone => []
    | vlist xs => xs
    | v => [v]
  let tags := tagsList.filterMap fun t =>
    let s := pyStrip (pyStr t)
    if s = "" then none else some (vstr s)
  let paper := dset paper "tags" (vlist tags)
  let paper := dset paper "embedding" (ps_parse_embedding (dgetD paper "embedding"))
  let paper :=
    if pyTruthy (dgetD paper "pub_date") then
      dset paper "pub_date" (vstr (pyStr (dgetD paper "pub_date")))
    else paper
  let paper :=
    if pyTruthy (dgetD paper "created_at") then
      dset paper "created_at" (vstr (pyStr (dgetD paper "created_at")))
    else paper
  paper

/-- `load_date`: the partition file's parsed content (`none` models a missing
or unparseable file, which `_load_raw` turns into `[]`, as does a file whose
top level is not an array); every dict item is normalised, non-dict items
are dropped. -/
def load_date (fileContent : Option PyVal) : List PyDict :=
  match fileContent with
  | some (vlist items) =>
    items.filterMap fun item =>
      match item with
      | vdict d => some (normalize_paper d)
      | _ => none
  | _ => []

/-- Lookup in the id-keyed partition dict. -/
def aget (m : List (String × PyDict)) (k : String) : Option PyDict := passocGet m k

/-- Assignment in the id-keyed partition dict (Python dict semantics:
replace the first binding in place, else append). -/
def aset (m : List (String × PyDict)) (k : String) (v : PyDict) :
    List (String × PyDict) := passocSet m k v

/-- The partition as `merge_papers` holds it in memory: the insertion-ordered
dict `{p["id"]: p for p in load_date(...)}` (for duplicate ids the later
record wins, keeping the first position).  After `load_date` every record has
a string `id`, so the key is `pyStr` of that field. -/
def existing_of (papers : List PyDict) : List (String × PyDict) :=
  papers.foldl (fun m p => aset m (pyStr (dgetD p "id")) p) []

/-- `val is None or val == ""`: the only incoming values the merge skips. -/
def isEmptyIncoming : PyVal → Bool
  | vnone => true
  | vstr s => s = ""
  | _ => false

/-- The per-id merge of `merge_papers`: start from a copy of the existing
record and overwrite every field whose incoming value is neither `None` nor
the empty string. -/
def merge_dict (existing normalized : PyDict) : PyDict :=
  normalized.foldl
    (fun merged kv => if isEmptyIncoming kv.2 then merged else dset merged kv.1 kv.2)
    existing

/-- The loop of `merge_papers` over the incoming records. -/
def merge_loop : List (String × PyDict) → Nat → List PyDict →
    List (String × PyDict) × Nat
  | existing, added, [] => (existing, added)
  | existing, added, paper :: rest =>
    let normalized := normalize_paper paper
    let pidVal := dgetD normalized "id"
    if pyTruthy pidVal then
      let pid := pyStr pidVal
      match aget existing pid with
      | some old => merge_loop (aset existing pid (merge_dict old normalized)) added rest
      | none => merge_loop (existing ++ [(pid, normalized)]) (added + 1) rest
    else merge_loop existing added rest

/-- `merge_papers`: load the partition, merge the incoming papers into it and
return the merged partition (what `save_date` persists, keyed by id) together
with the count of newly added ids. -/
def merge_papers (stored : Option PyVal) (new_papers : List PyDict) :
    List (String × PyDict) × Nat :=
  merge_loop (existing_of (load_date stored)) 0 new_papers

/-! ## Feed assembly (`app/feed.py`, route `index`) -/

/-- `_classify_tags` (closure inside `index`): `black` if the paper's tag set
meets the blacklist, else `white` if it meets the whitelist, else `neutral`.
The `blacklist_tags and ...` guards of the source are the (redundant)
non-emptiness tests on the sets. -/
def classify_tags (tag_list wl bl : List String) : String :=
  if bl ≠ [] ∧ ∃ t ∈ tag_list, t ∈ bl then "black"
  else if wl ≠ [] ∧ ∃ t ∈ tag_list, t ∈ wl then "white"
  else "neutral"

/-- A paper as the grouping stage sees it: its tag list and its (possibly
absent) similarity score.  The scalar type is any linearly ordered field,
which covers both the real scores produced by cosine similarity and
computable rational test points; only ordering and the constants `0`, `-1`
are ever used. -/
structure GPaper (α : Type) : Type where
  tags : List String
  similarity : Option α

/-- Python `x or 0` for `x` a number-or-`None` (`paper.get("similarity") or 0`). -/
def pyOrZero {α : Type} [LinearOrderedField α] (o : Option α) : α :=
  match o with
  | none => 0
  | some v => if v = 0 then 0 else v

/-- `_sort_key` of the grouping stage: `(similarity or 0) * -1`. -/
def group_sort_key {α : Type} [LinearOrderedField α] (p : GPaper α) : α :=
  pyOrZero p.similarity * (-1)

/-- The `grouped` dict after the classification loop: papers appended to
their label's bucket in input order. -/
def partition3 {α : Type} [LinearOrderedField α] (papers : List (GPaper α))
    (wl bl : List String) : List (GPaper α) × List (GPaper α) × List (GPaper α) :=
  papers.foldl
    (fun acc p =>
      let g := classify_tags p.tags wl bl
      if g = "black" then (acc.1, acc.2.1, acc.2.2 ++ [p])
      else if g = "white" then (acc.1 ++ [p], acc.2.1, acc.2.2)
      else (acc.1, acc.2.1 ++ [p], acc.2.2))
    ([], [], [])

/-- `grouped[key].sort(key=_sort_key)`: Python's stable ascending sort by the
negated similarity. -/
def sort_group {α : Type} [LinearOrderedField α] (l : List (GPaper α)) : List (GPaper α) :=
  l.insertionSort (fun a b => group_sort_key a ≤ group_sort_key b)

/-- Lines 658-699 of `feed.py`: classify into three buckets, sort each by
similarity descending, and concatenate white, neutral, black. -/
def feed_group_sort {α : Type} [LinearOrderedField α] (papers : List (GPaper α))
    (wl bl : List String) : List (GPaper α) :=
  let grouped := partition3 papers wl bl
  sort_group grouped.1 ++ sort_group grouped.2.1 ++ sort_group grouped.2.2

/-! ## Similarity-source resolution (`index`, lines 616-656) -/

/-- A row of the `Favorites` table as the feed reads it. -/
structure FavRow : Type where
  id : Nat
  name : String
  embedding : PyVal

/-- A paper entering the similarity stage: `_format_paper` initialises
`similarity` to `None`; `attach_similarity` may set it. -/
structure SimPaper : Type where
  embedding : PyVal
  similarity : Option ℝ

/-- Lines 616-630 of `index`: digit-filter the request's `sim_favorite`
values (`str.isdigit` then `int`, which is exactly `String.toNat?`), fall
back to the persisted selection when the request has none, keep only the
user's own favorite ids, and default to all of them only when no filter
record has ever been persisted. -/
def resolve_sim_favorites (requestArgs : List String) (saved : List Nat)
    (available : List Nat) (hasRecord : Bool) : List Nat :=
  let selected := requestArgs.filterMap (fun s => s.toNat?)
  let selected := if selected.isEmpty then saved else selected
  let selected := selected.filter (fun fid => available.contains fid)
  if selected.isEmpty ∧ ¬hasRecord then available else selected

/-- The row loop of `get_favorite_embeddings`: parse each embedding in
order (the first parse failure raises) and keep the truthy vectors. -/
def collect_embeddings : List FavRow → Except String (List (List ℚ))
  | [] => .ok []
  | row :: rest =>
    match parse_embedding row.embedding with
    | .error e => .error e
    | .ok vec =>
      match collect_embeddings rest with
      | .error e => .error e
      | .ok vectors =>
        .ok (match vec with
          | some v => if v.isEmpty then vectors else v :: vectors
          | none => vectors)

/-- `recommendations.get_favorite_embeddings`: keep all favorites when the
id list is `None` **or empty** (Python's `if favorite_ids:`), otherwise only
those in the list; parse each embedding and keep the truthy (non-`None`,
non-empty) vectors. -/
def get_favorite_embeddings (favs : List FavRow) (favoriteIds : Option (List Nat)) :
    Except String (List (List ℚ)) :=
  let rows := match favoriteIds with
    | some ids => if ids.isEmpty then favs else favs.filter (fun f => ids.contains f.id)
    | none => favs
  collect_embeddings rows

/-- The paper loop of `attach_similarity`: score each paper carrying a
truthy embedding with `max(cos(e, vec) for vec)`, first parse failure
raising. -/
noncomputable def attach_loop (interest_vectors : List (List ℚ)) :
    List SimPaper → Except String (List SimPaper)
  | [] => .ok []
  | paper :: rest =>
    match parse_embedding paper.embedding with
    | .error e => .error e
    | .ok emb =>
      let paper' := match emb with
        | some e' =>
          if e'.isEmpty then paper
          else { paper with
            similarity := pyMax (interest_vectors.map (fun vec => cosine_similarity e' vec)) }
        | none => paper
      match attach_loop interest_vectors rest with
      | .error e => .error e
      | .ok rest' => .ok (paper' :: rest')

/-- `recommendations.attach_similarity`: with no interest vectors the papers
pass through unchanged; otherwise every paper with a truthy embedding gets
`similarity = max(cosine against each interest vector)`. -/
noncomputable def attach_similarity (papers : List SimPaper)
    (interest_vectors : List (List ℚ)) : Except String (List SimPaper) :=
  if interest_vectors.isEmpty then .ok papers
  else attach_loop interest_vectors papers

/-- Lines 616-655 of `index`: resolve the similarity-source selection, fetch
the interest vectors (`selected_sim_favorites or None`!) and attach
similarity scores.  The subsequent in-place display sort (line 656) only
reorders the list and is immaterial to which papers carry a score. -/
noncomputable def feed_similarity_stage (papers : List SimPaper) (favs : List FavRow)
    (requestArgs : List String) (saved : List Nat) (hasRecord : Bool) :
    Except String (List SimPaper) :=
  let available := favs.map (·.id)
  let selected := resolve_sim_favorites requestArgs saved available hasRecord
  do
    let ivs ← get_favorite_embeddings favs (if selected.isEmpty then none else some selected)
    if ivs.isEmpty then pure papers else attach_similarity papers ivs

/-! ## Favorites with similarity (`app/services/favorites.py`) -/

/-- One entry of the `favorites_with_similarity` result. -/
structure FavEntry (α : Type) : Type where
  id : Nat
  name : String
  has_paper : Bool
  similarity : Option α
  is_top : Bool

/-- The sort key of the second (primary) sort pass:
`f["similarity"] if f["similarity"] is not None else -1`. -/
def fav_sim_key {α : Type} [LinearOrderedField α] (f : FavEntry α) : α :=
  match f.similarity with
  | some v => v
  | none => -1

/-- The favorite loop of `favorites_with_similarity`: one entry per
favorite, with similarity present exactly when both the target paper's and
the favorite's parsed embeddings are truthy. -/
def enrich_favorites {α : Type} [LinearOrderedField α]
    (simFn : List ℚ → List ℚ → α) (paperEmbedding : Option (List ℚ))
    (membership : List Nat) : List FavRow → Except String (List (FavEntry α))
  | [] => .ok []
  | fav :: rest =>
    match parse_embedding fav.embedding with
    | .error e => .error e
    | .ok favEmb =>
      let sim : Option α :=
        match paperEmbedding, favEmb with
        | some pe, some fe =>
            if pe.isEmpty ∨ fe.isEmpty then none else some (simFn pe fe)
        | _, _ => none
      match enrich_favorites simFn paperEmbedding membership rest with
      | .error e => .error e
      | .ok entries =>
        .ok (⟨fav.id, fav.name, membership.contains fav.id, sim, false⟩ :: entries)

/-- The `is_top` marking pass: every entry whose similarity equals the
maximum computed one is flagged. -/
def mark_top {α : Type} [LinearOrderedField α] (entries : List (FavEntry α)) :
    List (FavEntry α) :=
  match pyMax (entries.filterMap (·.similarity)) with
  | some maxSim =>
      entries.map fun f => if f.similarity = some maxSim then { f with is_top := true } else f
  | none => entries

/-- Lines 114-159 of `favorites_with_similarity`: parse the target paper's
embedding (`paper?` is the `find_by_id` result for the given paper id), build
one entry per favorite with the similarity `simFn` of the two truthy
embeddings, and mark `is_top` on every entry whose similarity equals the
maximum computed one.  `simFn` is the similarity measure — `cosine_similarity`
in the source; it is a parameter so that ordering facts are uniform in it. -/
def favorites_enriched {α : Type} [LinearOrderedField α]
    (simFn : List ℚ → List ℚ → α) (favs : List FavRow) (paper? : Option PyDict)
    (membership : List Nat) : Except String (List (FavEntry α)) :=
  match (match paper? with
    | some paper => parse_embedding (dgetD paper "embedding")
    | none => .ok (none : Option (List ℚ))) with
  | .error e => .error e
  | .ok paperEmbedding =>
    match enrich_favorites simFn paperEmbedding membership favs with
    | .error e => .error e
    | .ok enriched => .ok (mark_top enriched)

/-- The two stable sort passes of `favorites_with_similarity`: first by
case-insensitive name ascending, then by similarity (absent as `-1`)
descending (`reverse=True`). -/
def fav_sort_passes {α : Type} [LinearOrderedField α] (l : List (FavEntry α)) :
    List (FavEntry α) :=
  let l := l.insertionSort (fun a b => a.name.toLower ≤ b.name.toLower)
  l.insertionSort (fun a b => fav_sim_key b ≤ fav_sim_key a)

/-- `favorites_with_similarity`: enrichment followed by the two sort passes. -/
def favorites_with_similarity {α : Type} [LinearOrderedField α]
    (simFn : List ℚ → List ℚ → α) (favs : List FavRow) (paper? : Option PyDict)
    (membership : List Nat) : Except String (List (FavEntry α)) := do
  let enriched ← favorites_enriched simFn favs paper? membership
  pure (fav_sort_passes enriched)

/-! ## Filter persistence (`_load_filters` / `_save_filters`)

Only the reading-position columns are modelled: the category, tag and
`sim_favorites` columns are cleaned independently in `_save_filters` and
never read or write `last_date`/`last_paper_id`/`last_position`, so they are
irrelevant to the frame property under study. -/

/-- The reading-position columns of one `UserFilters` row. -/
structure LastRow : Type where
  last_date : Option String
  last_paper_id : Option String
  last_position : Option Int
deriving DecidableEq

/-- A calendar date as `datetime.date` holds it. -/
structure PyDate : Type where
  year : Nat
  month : Nat
  day : Nat
deriving DecidableEq

/-- Gregorian leap-year rule. -/
def isLeapYear (y : Nat) : Bool := (y % 4 = 0 ∧ y % 100 ≠ 0) ∨ y % 400 = 0

/-- Days in a month of the proleptic Gregorian calendar. -/
def daysInMonth (y m : Nat) : Nat :=
  if m = 2 then (if isLeapYear y then 29 else 28)
  else if m = 4 ∨ m = 6 ∨ m = 9 ∨ m = 11 then 30
  else 31

/-- `datetime.date.fromisoformat` on the character list: exactly
`YYYY-MM-DD` with a valid calendar date (year 1-9999). -/
def parseIsoDateChars : List Char → Option PyDate
  | [c1, c2, c3, c4, h1, c5, c6, h2, c7, c8] =>
    if h1 = '-' ∧ h2 = '-' then
      match digit? c1, digit? c2, digit? c3, digit? c4,
            digit? c5, digit? c6, digit? c7, digit? c8 with
      | some a, some b, some c, some d, some e, some f, some g, some h =>
        let y := a * 1000 + b * 100 + c * 10 + d
        let m := e * 10 + f
        let dd := g * 10 + h
        if 1 ≤ y ∧ 1 ≤ m ∧ m ≤ 12 ∧ 1 ≤ dd ∧ dd ≤ daysInMonth y m then
          some ⟨y, m, dd⟩
        else none
      | _, _, _, _, _, _, _, _ => none
    else none
  | _ => none

/-- `datetime.date.fromisoformat` on a string. -/
def parseIsoDate (s : String) : Option PyDate := parseIsoDateChars s.data

/-- The character of a decimal digit (only applied to values below ten). -/
def digitChar (n : Nat) : Char :=
  if n = 0 then '0' else if n = 1 then '1' else if n = 2 then '2'
  else if n = 3 then '3' else if n = 4 then '4' else if n = 5 then '5'
  else if n = 6 then '6' else if n = 7 then '7' else if n = 8 then '8'
  else '9'

/-- `date.isoformat()`: zero-padded `YYYY-MM-DD`. -/
def isoFormat (d : PyDate) : String :=
  ⟨[digitChar (d.year / 1000 % 10), digitChar (d.year / 100 % 10),
    digitChar (d.year / 10 % 10), digitChar (d.year % 10), '-',
    digitChar (d.month / 10 % 10), digitChar (d.month % 10), '-',
    digitChar (d.day / 10 % 10), digitChar (d.day % 10)]⟩

/-- `_parse_date_value`: `None` for falsy input, else `fromisoformat` with
failures mapped to `None`. -/
def parse_date_value (v : Option String) : Option PyDate :=
  match v with
  | none => none
  | some s => if s = "" then none else parseIsoDate s

/-- The reading-position part of a loaded filter record. -/
structure LoadedLast : Type where
  last_date : Option PyDate
  last_paper_id : Option String
  last_position : Int
  has_record : Bool

/-- `_load_filters` restricted to the reading-position fields: defaults when
no row exists, otherwise the parsed date, the raw paper id, and
`row["last_position"] or 0`. -/
def load_filters_last (row? : Option LastRow) : LoadedLast :=
  match row? with
  | none => ⟨none, none, 0, false⟩
  | some row => ⟨parse_date_value row.last_date, row.last_paper_id,
      row.last_position.getD 0, true⟩

/-- `_save_filters` restricted to the reading-position columns it writes:
an omitted (`None`) argument falls back to the loaded current value, a
current date value is serialised with `isoformat`, and the upsert overwrites
all three columns with the result. -/
def save_filters_last (row? : Option LastRow) (last_date : Option String)
    (last_paper_id : Option String) (last_position : Option Int) : LastRow :=
  let current := load_filters_last row?
  let lastDateVal : Option String :=
    match last_date with
    | none => current.last_date.map isoFormat
    | some s => some s
  let lastPaperIdVal : Option String :=
    match last_paper_id with
    | none => current.last_paper_id
    | some p => some p
  let lastPositionVal : Option Int :=
    match last_position with
    | none => some current.last_position
    | some p => some p
  ⟨lastDateVal, lastPaperIdVal, lastPositionVal⟩

/-! ## Helper notions used only in theorem statements -/

/-- The sequence a value directly is, or textually encodes (the two shapes
`parse_embedding` accepts): the list itself for a list, the decoded list for
a string that JSON-decodes to one, nothing otherwise. -/
def seq_of_embedding : PyVal → Option (List PyVal)
  | vlist xs => some xs
  | vstr s =>
    match jsonLoads s with
    | some (vlist xs) => some xs
    | _ => none
  | _ => none

/-- The tag list of a (normalised) paper record. -/
def tags_of (p : PyDict) : List PyVal :=
  match dget p "tags" with
  | some (vlist xs) => xs
  | _ => []

/-- The normalised id an incoming record would merge under. -/
def norm_id (p : PyDict) : String := pyStr (dgetD (normalize_paper p) "id")

/-! # Theorems -/

/-! ## Stable sorting

Python's `list.sort(key=...)` is a stable sort; `List.insertionSort` with
the reflexive key comparison has exactly that behaviour.  The fused lemma
below tracks, through one sorting pass, an invariant `S` that held pairwise
on the input — instantiated with the previous pass's key order, it yields
the lexicographic two-key ordering of two consecutive stable sorts. -/

/-- Inserting into a sorted-and-stable list preserves the fused invariant:
`a` goes before the first element it compares `≤` to, and `S a c` holds for
everything in the list (`a` preceded them all in the original order). -/
theorem orderedInsert_pairwise_fused {α : Type} (r : α → α → Prop) [DecidableRel r]
    (total : ∀ a b, r a b ∨ r b a) (trans : ∀ {a b c}, r a b → r b c → r a c)
    (S : α → α → Prop) (a : α) :
    ∀ l : List α, l.Pairwise (fun x y => r x y ∧ (r y x → S x y)) →
      (∀ c ∈ l, S a c) →
      (l.orderedInsert r a).Pairwise (fun x y => r x y ∧ (r y x → S x y)) := by
  intro l
  induction l with
  | nil => intro _ _; simp
  | cons b l ih =>
    intro hp hS
    rw [List.orderedInsert]
    by_cases hab : r a b
    · rw [if_pos hab]
      refine List.Pairwise.cons ?_ hp
      intro c hc
      rcases List.mem_cons.mp hc with rfl | hcl
      · exact ⟨hab, fun _ => hS _ (List.mem_cons_self _ _)⟩
      · have hbc := (List.pairwise_cons.mp hp).1 c hcl
        exact ⟨trans hab hbc.1, fun _ => hS _ (List.mem_cons_of_mem _ hcl)⟩
    · rw [if_neg hab]
      have hba : r b a := (total a b).resolve_left hab
      obtain ⟨hb, hl⟩ := List.pairwise_cons.mp hp
      refine List.Pairwise.cons ?_ (ih hl (fun c hc => hS c (List.mem_cons_of_mem _ hc)))
      intro c hc
      rw [List.mem_orderedInsert] at hc
      rcases hc with rfl | hcl
      · exact ⟨hba, fun hab' => absurd hab' hab⟩
      · exact hb c hcl

/-- One stable sorting pass: on input that is `Pairwise S`, the output is
sorted by `r` and keeps `S` between `r`-ties. -/
theorem insertionSort_pairwise_fused {α : Type} (r : α → α → Prop) [DecidableRel r]
    (total : ∀ a b, r a b ∨ r b a) (trans : ∀ {a b c}, r a b → r b c → r a c)
    (S : α → α → Prop) :
    ∀ l : List α, l.Pairwise S →
      (l.insertionSort r).Pairwise (fun x y => r x y ∧ (r y x → S x y)) := by
  intro l
  induction l with
  | nil => intro _; simp
  | cons a l ih =>
    intro hp
    obtain ⟨ha, hl⟩ := List.pairwise_cons.mp hp
    rw [List.insertionSort]
    exact orderedInsert_pairwise_fused r total trans S a _ (ih hl)
      (fun c hc => ha c ((List.mem_insertionSort r).mp hc))

/-! ## C6: grouping and ordering -/

/-- The classification label is always one of the three. -/
theorem classify_tags_cases (tags wl bl : List String) :
    classify_tags tags wl bl = "black" ∨ classify_tags tags wl bl = "white" ∨
      classify_tags tags wl bl = "neutral" := by
  unfold classify_tags
  split_ifs <;> simp

/-- The classification fold fills the three buckets with the corresponding
filters, in input order. -/
theorem partition3_eq {α : Type} [LinearOrderedField α] (papers : List (GPaper α))
    (wl bl : List String) :
    partition3 papers wl bl =
      (papers.filter (fun p => classify_tags p.tags wl bl = "white"),
       papers.filter (fun p => classify_tags p.tags wl bl = "neutral"),
       papers.filter (fun p => classify_tags p.tags wl bl = "black")) := by
  have key : ∀ (l : List (GPaper α)) (acc : List (GPaper α) × List (GPaper α) × List (GPaper α)),
      l.foldl (fun acc p =>
        let g := classify_tags p.tags wl bl
        if g = "black" then (acc.1, acc.2.1, acc.2.2 ++ [p])
        else if g = "white" then (acc.1 ++ [p], acc.2.1, acc.2.2)
        else (acc.1, acc.2.1 ++ [p], acc.2.2)) acc =
      (acc.1 ++ l.filter (fun p => classify_tags p.tags wl bl = "white"),
       acc.2.1 ++ l.filter (fun p => classify_tags p.tags wl bl = "neutral"),
       acc.2.2 ++ l.filter (fun p => classify_tags p.tags wl bl = "black")) := by
    intro l
    induction l with
    | nil => intro acc; simp
    | cons p l ih =>
      intro acc
      rw [List.foldl_cons]
      rcases classify_tags_cases p.tags wl bl with hc | hc | hc
      · simp only [hc]
        rw [ih]
        simp [List.filter_cons, hc]
      · simp only [hc]
        rw [ih]
        simp [List.filter_cons, hc]
      · simp only [hc]
        rw [ih]
        simp [List.filter_cons, hc]
  unfold partition3
  rw [key]
  simp

/-- Each bucket sort is a permutation of the bucket. -/
theorem sort_group_perm {α : Type} [LinearOrderedField α] (l : List (GPaper α)) :
    (sort_group l).Perm l := List.perm_insertionSort _ _

/-- Each bucket sort is non-increasing in similarity (absent read as 0). -/
theorem sort_group_sorted {α : Type} [LinearOrderedField α] (l : List (GPaper α)) :
    (sort_group l).Pairwise
      (fun a b => pyOrZero b.similarity ≤ pyOrZero a.similarity) := by
  haveI : IsTotal (GPaper α) (fun a b => group_sort_key a ≤ group_sort_key b) :=
    ⟨fun a b => le_total _ _⟩
  haveI : IsTrans (GPaper α) (fun a b => group_sort_key a ≤ group_sort_key b) :=
    ⟨fun a b c hab hbc => le_trans hab hbc⟩
  have h := List.sorted_insertionSort (fun a b => group_sort_key a ≤ group_sort_key b) l
  refine h.imp ?_
  intro a b hab
  unfold group_sort_key at hab
  rw [mul_neg_one, mul_neg_one] at hab
  exact neg_le_neg_iff.mp hab

/-- **C6.** The grouping stage returns exactly the white bucket, then the
neutral bucket, then the black bucket, each a similarity-sorted copy of the
corresponding classification filter; and every bucket sort is a permutation
of its bucket with non-increasing similarity (absent read as 0). -/
theorem feed_group_sort_spec {α : Type} [LinearOrderedField α]
    (papers : List (GPaper α)) (wl bl : List String) :
    feed_group_sort papers wl bl =
      sort_group (papers.filter (fun p => classify_tags p.tags wl bl = "white")) ++
      sort_group (papers.filter (fun p => classify_tags p.tags wl bl = "neutral")) ++
      sort_group (papers.filter (fun p => classify_tags p.tags wl bl = "black")) ∧
    ∀ l : List (GPaper α),
      (sort_group l).Pairwise (fun a b => pyOrZero b.similarity ≤ pyOrZero a.similarity) ∧
      (sort_group l).Perm l := by
  constructor
  · unfold feed_group_sort
    rw [partition3_eq]
  · intro l
    exact ⟨sort_group_sorted l, sort_group_perm l⟩

/-! ## Dictionary and string lemmas -/

/-- Lookup after assignment. -/
theorem passocGet_set {β : Type} (m : List (String × β)) (k k' : String) (v : β) :
    passocGet (passocSet m k v) k' = if k' = k then some v else passocGet m k' := by
  induction m with
  | nil =>
    by_cases h : k' = k
    · simp [passocSet, passocGet, List.find?, h]
    · simp [passocSet, passocGet, List.find?, h, Ne.symm h]
  | cons p m ih =>
    by_cases hp : p.1 = k
    · rw [show passocSet (p :: m) k v = (k, v) :: m by simp [passocSet, hp]]
      by_cases h : k' = k
      · simp [passocGet, List.find?, h]
      · simp only [passocGet, List.find?] at *
        have h1 : (decide ((k, v).1 = k')) = false := by simp [Ne.symm h]
        rw [h1]
        have h2 : (decide (p.1 = k')) = false := by
          simp only [decide_eq_false_iff_not]
          rw [hp]
          exact Ne.symm h
        simp [h2, h]
    · rw [show passocSet (p :: m) k v = p :: passocSet m k v by simp [passocSet, hp]]
      by_cases hp' : p.1 = k'
      · have hk : k' ≠ k := by
          intro hcon
          exact hp (hcon ▸ hp')
        simp [passocGet, List.find?, hp', hk]
      · simp only [passocGet, List.find?] at *
        have h1 : (decide (p.1 = k')) = false := by simp [hp']
        rw [h1]
        exact ih

/-- The keys after assignment: unchanged when the key was present, the key
appended otherwise. -/
theorem passocSet_keys {β : Type} (m : List (String × β)) (k : String) (v : β) :
    (passocSet m k v).map Prod.fst =
      if k ∈ m.map Prod.fst then m.map Prod.fst else m.map Prod.fst ++ [k] := by
  induction m with
  | nil => simp [passocSet]
  | cons p m ih =>
    by_cases hp : p.1 = k
    · rw [show passocSet (p :: m) k v = (k, v) :: m by simp [passocSet, hp]]
      simp [hp]
    · rw [show passocSet (p :: m) k v = p :: passocSet m k v by simp [passocSet, hp]]
      by_cases hm : k ∈ m.map Prod.fst
      · simp [ih, hm, Ne.symm hp]
      · simp [ih, hm, Ne.symm hp]

/-- A key is absent exactly when lookup fails. -/
theorem passocGet_eq_none {β : Type} (m : List (String × β)) (k : String) :
    passocGet m k = none ↔ k ∉ m.map Prod.fst := by
  induction m with
  | nil => simp [passocGet]
  | cons p m ih =>
    by_cases hp : p.1 = k
    · simp [passocGet, List.find?, hp]
    · simp only [passocGet, List.find?] at *
      have h1 : (decide (p.1 = k)) = false := by simp [hp]
      rw [h1]
      simp [ih, Ne.symm hp]

/-- `pyStrip` written with Mathlib's `rdropWhile`. -/
theorem pyStrip_eq (s : String) :
    (pyStrip s).data =
      List.rdropWhile Char.isWhitespace (s.data.dropWhile Char.isWhitespace) := rfl

/-- The head surviving a `dropWhile` does not satisfy the predicate. -/
theorem dropWhile_head_not {α : Type} {p : α → Bool} :
    ∀ (l : List α) (b : α) (t : List α), l.dropWhile p = b :: t → ¬ p b := by
  intro l
  induction l with
  | nil => intro b t h; simp [List.dropWhile] at h
  | cons a l ih =>
    intro b t h
    by_cases ha : p a
    · rw [List.dropWhile_cons_of_pos ha] at h
      exact ih b t h
    · rw [List.dropWhile_cons_of_neg ha] at h
      obtain ⟨rfl, -⟩ := List.cons.injEq .. ▸ h
      simpa using ha

/-- Stripping is idempotent. -/
theorem pyStrip_idem (s : String) : pyStrip (pyStrip s) = pyStrip s := by
  have hdata : (pyStrip (pyStrip s)).data = (pyStrip s).data := by
    rw [pyStrip_eq (pyStrip s), pyStrip_eq s]
    have hdrop : (List.rdropWhile Char.isWhitespace
        (s.data.dropWhile Char.isWhitespace)).dropWhile Char.isWhitespace =
        List.rdropWhile Char.isWhitespace (s.data.dropWhile Char.isWhitespace) := by
      rcases hB : List.rdropWhile Char.isWhitespace (s.data.dropWhile Char.isWhitespace) with
        _ | ⟨b, t⟩
      · rfl
      · have hpre := List.rdropWhile_prefix Char.isWhitespace
          (s.data.dropWhile Char.isWhitespace)
        rw [hB] at hpre
        obtain ⟨u, hu⟩ := hpre
        have hb : ¬ Char.isWhitespace b :=
          dropWhile_head_not s.data b (t ++ u) hu.symm
        simp [List.dropWhile_cons, hb]
    rw [hdrop, List.rdropWhile_idempotent]
  exact congrArg String.mk hdata

/-! ## C4: tag normalisation -/

/-- Lookup after `d[k] = v` on a paper record. -/
theorem dget_dset (p : PyDict) (k k' : String) (v : PyVal) :
    dget (dset p k v) k' = if k' = k then some v else dget p k' := by
  unfold dget dset
  exact passocGet_set p k k' v

/-- `tags_of` looks through assignments to other keys. -/
theorem tags_of_dset_ne (p : PyDict) (k : String) (w : PyVal) (h : k ≠ "tags") :
    tags_of (dset p k w) = tags_of p := by
  unfold tags_of
  rw [dget_dset]
  simp [Ne.symm h]

/-- `tags_of` looks through an `embedding` assignment. -/
theorem tags_of_dset_embedding (p : PyDict) (w : PyVal) :
    tags_of (dset p "embedding" w) = tags_of p := tags_of_dset_ne _ _ _ (by decide)

/-- `tags_of` looks through a `pub_date` assignment. -/
theorem tags_of_dset_pub_date (p : PyDict) (w : PyVal) :
    tags_of (dset p "pub_date" w) = tags_of p := tags_of_dset_ne _ _ _ (by decide)

/-- `tags_of` looks through a `created_at` assignment. -/
theorem tags_of_dset_created_at (p : PyDict) (w : PyVal) :
    tags_of (dset p "created_at" w) = tags_of p := tags_of_dset_ne _ _ _ (by decide)

/-- `tags_of` reads back an assigned tag list. -/
theorem tags_of_dset_tags (p : PyDict) (l : List PyVal) :
    tags_of (dset p "tags" (vlist l)) = l := by
  unfold tags_of
  rw [dget_dset]
  simp

/-- **C4 (amended).** After `_normalize_paper`, every tag is a string that is
trimmed and non-empty.  (Deduplication is *not* performed — see the
counterexample.) -/
theorem normalize_tags_trimmed (raw : PyDict) :
    ∀ v ∈ tags_of (normalize_paper raw), ∃ s, v = vstr s ∧ s ≠ "" ∧ pyStrip s = s := by
  intro v hv
  unfold normalize_paper at hv
  simp only [] at hv
  split at hv <;> split at hv <;>
    first
      | rw [tags_of_dset_created_at, tags_of_dset_pub_date, tags_of_dset_embedding,
          tags_of_dset_tags] at hv
      | rw [tags_of_dset_created_at, tags_of_dset_embedding, tags_of_dset_tags] at hv
      | rw [tags_of_dset_pub_date, tags_of_dset_embedding, tags_of_dset_tags] at hv
      | rw [tags_of_dset_embedding, tags_of_dset_tags] at hv
  all_goals
    rw [List.mem_filterMap] at hv
    obtain ⟨t, -, hf⟩ := hv
    have hf' : (if pyStrip (pyStr t) = "" then none
        else some (vstr (pyStrip (pyStr t)))) = some v := hf
    clear hf
    rename' hf' => hf
    split at hf
    · exact absurd hf (by simp)
    · next hne =>
      obtain rfl : vstr (pyStrip (pyStr t)) = v := by
        simpa using hf
      exact ⟨pyStrip (pyStr t), rfl, hne, pyStrip_idem _⟩

/-- Witness for C4: the trimmed-tag guarantee at a concrete record. -/
theorem normalize_tags_trimmed_witness :
    ∃ s, vstr "AI" = vstr s ∧ s ≠ "" ∧ pyStrip s = s :=
  normalize_tags_trimmed [("tags", vlist [vstr " AI "])] (vstr "AI")
    (by rw [show tags_of (normalize_paper [("tags", vlist [vstr " AI "])])
          = [vstr "AI"] from rfl]; simp)

/-- **C4 (counterexample).** Normalisation does *not* deduplicate tags: two
tags equal after trimming both survive, so the claimed set-likeness fails. -/
theorem normalize_tags_dedup_cex :
    tags_of (normalize_paper [("tags", vlist [vstr "AI", vstr " AI "])])
      = [vstr "AI", vstr "AI"] ∧
    ¬ (tags_of (normalize_paper [("tags", vlist [vstr "AI", vstr " AI "])])).Nodup := by
  have h : tags_of (normalize_paper [("tags", vlist [vstr "AI", vstr " AI "])])
      = [vstr "AI", vstr "AI"] := rfl
  refine ⟨h, ?_⟩
  rw [h]
  simp

/-! ## C2: field-preserving merge -/

/-- Lookup is unchanged by assignment to a different key. -/
theorem dget_dset_ne (p : PyDict) (k k' : String) (v : PyVal) (h : k' ≠ k) :
    dget (dset p k v) k' = dget p k' := by
  rw [dget_dset]
  simp [h]

/-- Lookup reads back an assignment. -/
theorem dget_dset_self (p : PyDict) (k : String) (v : PyVal) :
    dget (dset p k v) k = some v := by
  rw [dget_dset]
  simp

/-- Lookup after assignment in the partition dict. -/
theorem aget_aset (m : List (String × PyDict)) (k k' : String) (v : PyDict) :
    aget (aset m k v) k' = if k' = k then some v else aget m k' := passocGet_set m k k' v

/-- A successful partition lookup means the key is present. -/
theorem aget_mem_keys (m : List (String × PyDict)) (k : String) (p : PyDict)
    (h : aget m k = some p) : k ∈ m.map Prod.fst := by
  by_contra hk
  rw [show aget m k = passocGet m k from rfl, (passocGet_eq_none m k).mpr hk] at h
  exact Option.noConfusion h

/-- After `_normalize_paper` the `id` field is the string `norm_id` names. -/
theorem dget_normalize_id (raw : PyDict) :
    dget (normalize_paper raw) "id" = some (vstr (norm_id raw)) := by
  obtain ⟨s, hs⟩ : ∃ s, dget (normalize_paper raw) "id" = some (vstr s) := by
    unfold normalize_paper
    simp only []
    split <;> split <;>
      first
        | (rw [dget_dset_ne _ _ _ _ (by decide), dget_dset_ne _ _ _ _ (by decide),
            dget_dset_ne _ _ _ _ (by decide), dget_dset_ne _ _ _ _ (by decide),
            dget_dset_self]
           exact ⟨_, rfl⟩)
        | (rw [dget_dset_ne _ _ _ _ (by decide), dget_dset_ne _ _ _ _ (by decide),
            dget_dset_ne _ _ _ _ (by decide), dget_dset_self]
           exact ⟨_, rfl⟩)
        | (rw [dget_dset_ne _ _ _ _ (by decide), dget_dset_ne _ _ _ _ (by decide),
            dget_dset_self]
           exact ⟨_, rfl⟩)
  have hid : norm_id raw = s := by
    unfold norm_id dgetD
    rw [hs]
    rfl
  rw [hs, hid]

/-- The per-field rule of the merge loop body: a field of the stored record
survives exactly when the incoming record lacks that field or carries `None`
or `""` there; any other incoming value (lists included) wins. -/
theorem merge_dict_lookup (old norm : PyDict) (hn : (norm.map Prod.fst).Nodup)
    (k : String) :
    dget (merge_dict old norm) k =
      (dget norm k).elim (dget old k)
        (fun v => if isEmptyIncoming v then dget old k else some v) := by
  induction norm generalizing old with
  | nil => simp [merge_dict, dget, passocGet]
  | cons kv norm ih =>
    obtain ⟨k0, v0⟩ := kv
    have hn' : (norm.map Prod.fst).Nodup := (List.nodup_cons.mp (by simpa using hn)).2
    have hk0 : k0 ∉ norm.map Prod.fst := (List.nodup_cons.mp (by simpa using hn)).1
    have hstep : merge_dict old ((k0, v0) :: norm)
        = merge_dict (if isEmptyIncoming v0 then old else dset old k0 v0) norm := by
      unfold merge_dict
      rw [List.foldl_cons]
    rw [hstep, ih _ hn']
    by_cases hkk : k = k0
    · subst hkk
      have hnormk : dget norm k = none := (passocGet_eq_none norm k).mpr hk0
      have hconsk : dget ((k, v0) :: norm) k = some v0 := by
        simp [dget, passocGet, List.find?]
      rw [hnormk, hconsk]
      by_cases he : isEmptyIncoming v0
      · simp [he]
      · simp [he, dget_dset_self]
    · have hconsk : dget ((k0, v0) :: norm) k = dget norm k := by
        have h1 : (decide (k0 = k)) = false := by simp [Ne.symm hkk]
        simp [dget, passocGet, List.find?, h1]
      rw [hconsk]
      by_cases he : isEmptyIncoming v0
      · simp [he]
      · have hdo : dget (dset old k0 v0) k = dget old k := dget_dset_ne _ _ _ _ hkk
        cases hnk : dget norm k with
        | none => simp [he, hdo]
        | some w => by_cases hw : isEmptyIncoming w <;> simp [he, hw, hdo]

/-- One step of `merge_papers` on a single incoming record whose id already
exists in the partition: the stored record becomes the field-merge. -/
theorem merge_papers_existing_step (stored : Option PyVal) (incoming old : PyDict)
    (hpid : norm_id incoming ≠ "")
    (hold : aget (existing_of (load_date stored)) (norm_id incoming) = some old) :
    merge_papers stored [incoming]
      = (aset (existing_of (load_date stored)) (norm_id incoming)
          (merge_dict old (normalize_paper incoming)), 0) := by
  have hidv : dgetD (normalize_paper incoming) "id" = vstr (norm_id incoming) := by
    unfold dgetD
    rw [dget_normalize_id]
    rfl
  have htr : pyTruthy (vstr (norm_id incoming)) = true := by
    simp [pyTruthy, hpid]
  unfold merge_papers merge_loop
  simp only [hidv, pyStr]
  rw [if_pos htr, hold]
  rfl

/-- **C2 (amended).** Merging an incoming record over a stored record with
the same id merges field-by-field: the stored value survives exactly when the
incoming record lacks the field or carries `None` or the empty string there;
*every other* incoming value overwrites, including an empty list (so the
always-present normalised `tags` field overwrites even when empty — see the
counterexample). -/
theorem merge_papers_field_rule (stored : Option PyVal) (incoming old : PyDict)
    (hpid : norm_id incoming ≠ "")
    (hold : aget (existing_of (load_date stored)) (norm_id incoming) = some old)
    (hn : ((normalize_paper incoming).map Prod.fst).Nodup) :
    aget (merge_papers stored [incoming]).1 (norm_id incoming)
        = some (merge_dict old (normalize_paper incoming)) ∧
    (merge_papers stored [incoming]).2 = 0 ∧
    ∀ k, dget (merge_dict old (normalize_paper incoming)) k =
      (dget (normalize_paper incoming) k).elim (dget old k)
        (fun v => if isEmptyIncoming v then dget old k else some v) := by
  rw [merge_papers_existing_step stored incoming old hpid hold]
  refine ⟨?_, rfl, fun k => merge_dict_lookup old (normalize_paper incoming) hn k⟩
  rw [aget_aset]
  simp

/-- Witness for C2: a stored title `"A"` survives an incoming empty title. -/
theorem merge_papers_field_rule_witness :
    aget (merge_papers
        (some (vlist [vdict [("id", vstr "p1"), ("title", vstr "A")]]))
        ([[("id", vstr "p1"), ("title", vstr "")]] : List PyDict)).1
      (norm_id ([("id", vstr "p1"), ("title", vstr "")] : PyDict))
      = some (merge_dict
          (normalize_paper ([("id", vstr "p1"), ("title", vstr "A")] : PyDict))
          (normalize_paper ([("id", vstr "p1"), ("title", vstr "")] : PyDict))) ∧
    dget (merge_dict
        (normalize_paper ([("id", vstr "p1"), ("title", vstr "A")] : PyDict))
        (normalize_paper ([("id", vstr "p1"), ("title", vstr "")] : PyDict))) "title"
      = some (vstr "A") := by
  have h := merge_papers_field_rule
    (some (vlist [vdict [("id", vstr "p1"), ("title", vstr "A")]]))
    ([("id", vstr "p1"), ("title", vstr "")] : PyDict)
    (normalize_paper ([("id", vstr "p1"), ("title", vstr "A")] : PyDict))
    (by decide) (by rfl) (by decide)
  refine ⟨h.1, ?_⟩
  rw [h.2.2 "title"]
  rfl

/-- **C2 (counterexample).** An incoming record without tags normalises to an
*empty tag list*, which overwrites the stored non-empty tags: the stored
`["AI"]` becomes `[]`, refuting "an empty incoming value never overwrites a
non-empty existing value" for list-valued fields. -/
theorem merge_papers_empty_tags_overwrite_cex :
    ((load_date (some (vlist [vdict [("id", vstr "p1"), ("tags", vlist [vstr "AI"])]]))).map
        (fun p => dget p "tags") = [some (vlist [vstr "AI"])]) ∧
    ((merge_papers (some (vlist [vdict [("id", vstr "p1"), ("tags", vlist [vstr "AI"])]]))
        [[("id", vstr "p1")]]).1.map (fun kv => dget kv.2 "tags") = [some (vlist [])]) :=
  ⟨rfl, rfl⟩

/-! ## C10: empty ids and the added count -/

/-- The invariant of the `merge_papers` loop: the added counter counts the
distinct non-empty incoming ids absent from the partition, every key of the
final partition is an old key or a non-empty incoming id, and an incoming
record with an empty normalised id leaves the state untouched. -/
theorem merge_loop_spec (ps : List PyDict) :
    ∀ (E : List (String × PyDict)) (a : Nat),
    (merge_loop E a ps).2 = a + ((ps.map norm_id).toFinset.filter
        (fun s => ¬ s = "" ∧ ¬ s ∈ E.map Prod.fst)).card ∧
    ∀ k ∈ (merge_loop E a ps).1.map Prod.fst,
      k ∈ E.map Prod.fst ∨ (k ≠ "" ∧ k ∈ ps.map norm_id) := by
  induction ps with
  | nil => intro E a; simp [merge_loop]
  | cons p rest ih =>
    intro E a
    have hidv : dgetD (normalize_paper p) "id" = vstr (norm_id p) := by
      unfold dgetD
      rw [dget_normalize_id]
      rfl
    have hstep : ∀ E' a', merge_loop E' a' (p :: rest) =
        (if pyTruthy (vstr (norm_id p)) then
          match aget E' (norm_id p) with
          | some old => merge_loop (aset E' (norm_id p) (merge_dict old (normalize_paper p))) a' rest
          | none => merge_loop (E' ++ [(norm_id p, normalize_paper p)]) (a' + 1) rest
        else merge_loop E' a' rest) := by
      intro E' a'
      conv_lhs => rw [merge_loop]
      rw [hidv]
      rfl
    by_cases hid : norm_id p = ""
    · rw [hstep, hid, if_neg (by decide)]
      obtain ⟨h1, h2⟩ := ih E a
      constructor
      · rw [h1]
        congr 1
        rw [List.map_cons, hid, List.toFinset_cons, Finset.filter_insert,
          if_neg (by simp)]
      · intro k hk
        rcases h2 k hk with h | h
        · exact Or.inl h
        · exact Or.inr ⟨h.1, by simp [h.2]⟩
    · rw [hstep, if_pos (by simp [pyTruthy, hid])]
      cases holdv : aget E (norm_id p) with
      | some old =>
        have hmem : norm_id p ∈ E.map Prod.fst := aget_mem_keys _ _ _ holdv
        have hkeys : (aset E (norm_id p) (merge_dict old (normalize_paper p))).map Prod.fst
            = E.map Prod.fst := by
          rw [show aset E (norm_id p) (merge_dict old (normalize_paper p))
              = passocSet E (norm_id p) (merge_dict old (normalize_paper p)) from rfl,
            passocSet_keys, if_pos hmem]
        obtain ⟨h1, h2⟩ := ih (aset E (norm_id p) (merge_dict old (normalize_paper p))) a
        constructor
        · rw [h1, hkeys]
          congr 1
          rw [List.map_cons, List.toFinset_cons, Finset.filter_insert,
            if_neg (by simp [hmem])]
        · intro k hk
          rcases h2 k hk with h | h
          · exact Or.inl (hkeys ▸ h)
          · exact Or.inr ⟨h.1, by simp [h.2]⟩
      | none =>
        have hmem : norm_id p ∉ E.map Prod.fst :=
          (passocGet_eq_none E (norm_id p)).mp holdv
        obtain ⟨h1, h2⟩ := ih (E ++ [(norm_id p, normalize_paper p)]) (a + 1)
        have hkeys : (E ++ [(norm_id p, normalize_paper p)]).map Prod.fst
            = E.map Prod.fst ++ [norm_id p] := by simp
        constructor
        · rw [h1, hkeys]
          have hset : ((p :: rest).map norm_id).toFinset.filter
              (fun s => ¬ s = "" ∧ ¬ s ∈ E.map Prod.fst)
              = insert (norm_id p) (((rest.map norm_id).toFinset.filter
                  (fun s => ¬ s = "" ∧ ¬ s ∈ E.map Prod.fst))) := by
            rw [List.map_cons, List.toFinset_cons, Finset.filter_insert,
              if_pos ⟨hid, hmem⟩]
          rw [hset]
          have herase : (rest.map norm_id).toFinset.filter
              (fun s => ¬ s = "" ∧ ¬ s ∈ (E.map Prod.fst ++ [norm_id p]))
              = ((rest.map norm_id).toFinset.filter
                  (fun s => ¬ s = "" ∧ ¬ s ∈ E.map Prod.fst)).erase (norm_id p) := by
            ext s
            simp only [Finset.mem_filter, Finset.mem_erase, List.mem_append]
            constructor
            · rintro ⟨hs, hne, hnmem⟩
              refine ⟨?_, hs, hne, fun hc => hnmem (Or.inl hc)⟩
              intro hc
              exact hnmem (hc ▸ Or.inr (by simp))
            · rintro ⟨hne', hs, hne, hnmem⟩
              refine ⟨hs, hne, ?_⟩
              rintro (hc | hc)
              · exact hnmem hc
              · simp only [List.mem_singleton] at hc
                exact hne' hc
          rw [herase]
          by_cases hmm : norm_id p ∈ (rest.map norm_id).toFinset.filter
              (fun s => ¬ s = "" ∧ ¬ s ∈ E.map Prod.fst)
          · rw [Finset.card_insert_of_mem hmm, Finset.card_erase_of_mem hmm]
            have : 0 < ((rest.map norm_id).toFinset.filter
                (fun s => ¬ s = "" ∧ ¬ s ∈ E.map Prod.fst)).card :=
              Finset.card_pos.mpr ⟨_, hmm⟩
            omega
          · rw [Finset.card_insert_of_not_mem hmm, Finset.erase_eq_of_not_mem hmm]
            omega
        · intro k hk
          rcases h2 k hk with h | h
          · rw [hkeys] at h
            rcases List.mem_append.mp h with h | h
            · exact Or.inl h
            · simp only [List.mem_singleton] at h
              exact Or.inr ⟨h ▸ hid, by simp [h]⟩
          · exact Or.inr ⟨h.1, by simp [h.2]⟩

/-- **C10 (amended).** The returned count is the number of distinct non-empty
incoming normalised ids not already present; every stored key is either a
pre-existing key or a non-empty incoming id (so the merge itself never
*introduces* an empty id — but a pre-existing empty id survives, see the
counterexample); and an incoming record with an empty normalised id is
ignored entirely. -/
theorem merge_papers_count_spec (stored : Option PyVal) (ps : List PyDict) :
    ((merge_papers stored ps).2 =
      ((ps.map norm_id).toFinset.filter
        (fun s => ¬ s = "" ∧ ¬ s ∈ (existing_of (load_date stored)).map Prod.fst)).card) ∧
    (∀ k ∈ (merge_papers stored ps).1.map Prod.fst,
      k ∈ (existing_of (load_date stored)).map Prod.fst ∨ (k ≠ "" ∧ k ∈ ps.map norm_id)) ∧
    ∀ E a (p : PyDict) rest, norm_id p = "" → merge_loop E a (p :: rest) = merge_loop E a rest := by
  refine ⟨?_, ?_, ?_⟩
  · have h := (merge_loop_spec ps (existing_of (load_date stored)) 0).1
    simpa [merge_papers] using h
  · exact (merge_loop_spec ps (existing_of (load_date stored)) 0).2
  · intro E a p rest hid
    have hidv : dgetD (normalize_paper p) "id" = vstr (norm_id p) := by
      unfold dgetD
      rw [dget_normalize_id]
      rfl
    conv_lhs => rw [merge_loop]
    rw [hidv, hid]
    simp [pyTruthy]

/-- Witness for C10: the count formula, key containment and the skip rule at
concrete inputs. -/
theorem merge_papers_count_spec_witness :
    (merge_papers (some (vlist [vdict [("id", vstr "p1")]]))
        [[("id", vstr "p2")], [("id", vstr " ")], [("id", vstr "p2")]]).2 =
      (((([[("id", vstr "p2")], [("id", vstr " ")], [("id", vstr "p2")]] : List PyDict).map
          norm_id).toFinset.filter
        (fun s => ¬ s = "" ∧ ¬ s ∈ (existing_of (load_date (some (vlist
          [vdict [("id", vstr "p1")]])))).map Prod.fst)).card) ∧
    merge_loop [] 0 [[("id", vstr " ")]] = merge_loop [] 0 [] := by
  refine ⟨(merge_papers_count_spec (some (vlist [vdict [("id", vstr "p1")]]))
    [[("id", vstr "p2")], [("id", vstr " ")], [("id", vstr "p2")]]).1, ?_⟩
  exact (merge_papers_count_spec (some (vlist [vdict [("id", vstr "p1")]]))
    [[("id", vstr "p2")], [("id", vstr " ")], [("id", vstr "p2")]]).2.2 [] 0
      [("id", vstr " ")] [] (by rfl)

/-- **C10 (counterexample).** A partition whose stored file contains a record
without an id keeps that record under the empty id through a merge: the ids
stored after the merge are not all non-empty. -/
theorem merge_papers_empty_id_cex :
    (merge_papers (some (vlist [vdict [("title", vstr "x")]])) []).1.map Prod.fst
      = [""] := rfl

/-! ## C3: embedding parsing -/

/-- The float comprehension succeeds exactly when every element converts. -/
theorem pyFloatList_ok_iff (xs : List PyVal) :
    (∃ l, pyFloatList xs = .ok l) ↔ ∀ x ∈ xs, ∃ q, pyFloat x = .ok q := by
  induction xs with
  | nil => exact ⟨fun _ => by simp, fun _ => ⟨[], rfl⟩⟩
  | cons x xs ih =>
    constructor
    · rintro ⟨l, hl⟩
      unfold pyFloatList at hl
      cases hx : pyFloat x with
      | error e => rw [hx] at hl; exact absurd hl (by simp)
      | ok q =>
        rw [hx] at hl
        cases hxs : pyFloatList xs with
        | error e => rw [hxs] at hl; exact absurd hl (by simp)
        | ok l' =>
          intro y hy
          rcases List.mem_cons.mp hy with rfl | hy'
          · exact ⟨q, hx⟩
          · exact (ih.mp ⟨l', hxs⟩) y hy'
    · intro h
      obtain ⟨q, hq⟩ := h x (List.mem_cons_self x xs)
      obtain ⟨l, hl⟩ := ih.mpr (fun y hy => h y (List.mem_cons_of_mem x hy))
      exact ⟨q :: l, by unfold pyFloatList; rw [hq, hl]⟩

/-- **C3 (amended).** `parse_embedding` succeeds exactly when the input is
not a sequence (directly or after JSON decoding) containing an element
`float` rejects; a non-sequence shape yields absent; a sequence is converted
elementwise (raising on the first bad element); and the store-level
`_parse_embedding` returns the decoded list for sequence shapes but passes
*any other* input through unchanged instead of yielding absent. -/
theorem parse_embedding_spec (raw : PyVal) :
    ((∃ y, parse_embedding raw = .ok y) ↔
      ∀ xs, seq_of_embedding raw = some xs → ∀ x ∈ xs, ∃ q, pyFloat x = .ok q) ∧
    (seq_of_embedding raw = none → parse_embedding raw = .ok none) ∧
    (∀ xs, seq_of_embedding raw = some xs →
      parse_embedding raw = (pyFloatList xs).map some) ∧
    ps_parse_embedding raw = (seq_of_embedding raw).elim raw (fun xs => vlist xs) := by
  have hseq : ∀ xs, seq_of_embedding raw = some xs →
      parse_embedding raw = (pyFloatList xs).map some := by
    intro xs hxs
    cases raw with
    | vlist ys =>
      obtain rfl : ys = xs := by simpa [seq_of_embedding] using hxs
      rfl
    | vstr s =>
      simp only [seq_of_embedding] at hxs
      simp only [parse_embedding]
      cases hj : jsonLoads s with
      | none => rw [hj] at hxs; exact absurd hxs (by simp)
      | some v =>
        rw [hj] at hxs
        cases v with
        | vlist ys =>
          obtain rfl : ys = xs := by simpa using hxs
          rfl
        | vnone => exact absurd hxs (by simp)
        | vbool b => exact absurd hxs (by simp)
        | vnum q => exact absurd hxs (by simp)
        | vstr t => exact absurd hxs (by simp)
        | vdict d => exact absurd hxs (by simp)
    | vnone => exact absurd hxs (by simp [seq_of_embedding])
    | vbool b => exact absurd hxs (by simp [seq_of_embedding])
    | vnum q => exact absurd hxs (by simp [seq_of_embedding])
    | vdict d => exact absurd hxs (by simp [seq_of_embedding])
  have hnone : seq_of_embedding raw = none → parse_embedding raw = .ok none := by
    intro h
    cases raw with
    | vnone => rfl
    | vbool b => rfl
    | vnum q => rfl
    | vdict d => rfl
    | vlist ys => exact absurd h (by simp [seq_of_embedding])
    | vstr s =>
      simp only [seq_of_embedding] at h
      simp only [parse_embedding]
      cases hj : jsonLoads s with
      | none => rfl
      | some v =>
        rw [hj] at h
        cases v with
        | vlist ys => exact absurd h (by simp)
        | vnone => rfl
        | vbool b => rfl
        | vnum q => rfl
        | vstr t => rfl
        | vdict d => rfl
  refine ⟨?_, hnone, hseq, ?_⟩
  · cases hs : seq_of_embedding raw with
    | none =>
      rw [hnone hs]
      simp
    | some xs =>
      rw [hseq xs hs]
      constructor
      · rintro ⟨y, hy⟩ xs' hxs' x hx
        obtain rfl : xs = xs' := by simpa using hxs'
        cases hm : pyFloatList xs with
        | error e => rw [hm] at hy; simp [Except.map] at hy
        | ok l => exact (pyFloatList_ok_iff xs).mp ⟨l, hm⟩ x hx
      · intro h
        obtain ⟨l, hl⟩ := (pyFloatList_ok_iff xs).mpr (h xs rfl)
        exact ⟨some l, by simp [hl, Except.map]⟩
  · cases raw with
    | vnone => rfl
    | vbool b => rfl
    | vnum q => rfl
    | vdict d => rfl
    | vlist ys => rfl
    | vstr s =>
      simp only [seq_of_embedding, ps_parse_embedding]
      cases hj : jsonLoads s with
      | none => rfl
      | some v => cases v <;> rfl

/-- Witness for C3: elementwise conversion of a concrete direct sequence,
and absence for a concrete non-sequence shape. -/
theorem parse_embedding_spec_witness :
    parse_embedding (vlist [vnum 1]) = (pyFloatList [vnum 1]).map some ∧
    parse_embedding (vnum 5) = .ok none :=
  ⟨(parse_embedding_spec (vlist [vnum 1])).2.2.1 [vnum 1] rfl,
   (parse_embedding_spec (vnum 5)).2.1 rfl⟩

/-- **C3 (counterexample).** `parse_embedding` *does* fail with an error: a
list containing a non-numeric string raises `ValueError` from `float`; and
the store-level `_parse_embedding` returns a number unchanged rather than
absent. -/
theorem parse_embedding_error_cex :
    parse_embedding (vlist [vstr "a"]) = .error "ValueError" ∧
    ps_parse_embedding (vnum 5) = vnum 5 := ⟨rfl, rfl⟩

/-! ## C5: tag classification -/

/-- **C5.** For every paper and whitelist/blacklist pair, `_classify_tags`
returns exactly one of the three labels, with the blacklist checked first:
`black` iff the tag set meets the blacklist (even when it also meets the
whitelist), else `white` iff it meets the whitelist, else `neutral`. -/
theorem classify_tags_priority (tags wl bl : List String) :
    (classify_tags tags wl bl = "black" ↔ ∃ t ∈ tags, t ∈ bl) ∧
    (classify_tags tags wl bl = "white" ↔ (¬∃ t ∈ tags, t ∈ bl) ∧ ∃ t ∈ tags, t ∈ wl) ∧
    (classify_tags tags wl bl = "neutral" ↔ (¬∃ t ∈ tags, t ∈ bl) ∧ ¬∃ t ∈ tags, t ∈ wl) := by
  unfold classify_tags
  by_cases hb : ∃ t ∈ tags, t ∈ bl
  · have hbl : bl ≠ [] := by
      obtain ⟨t, -, ht⟩ := hb
      exact List.ne_nil_of_mem ht
    simp only [hbl, hb, ne_eq, not_false_eq_true, true_and, if_true]
    refine ⟨by simp [hb], by simp [hb], by simp [hb]⟩
  · by_cases hw : ∃ t ∈ tags, t ∈ wl
    · have hwl : wl ≠ [] := by
        obtain ⟨t, -, ht⟩ := hw
        exact List.ne_nil_of_mem ht
      simp [hb, hw, hwl]
    · simp [hb, hw]

/-! ## C7: mean vector -/

/-- The state of `_mean_vector`'s accumulation loop after processing `l`:
the running totals stay at the reference length, the counter counts the
length-matching vectors, and each coordinate accumulates their sum. -/
theorem mean_fold_invariant (L : Nat) (l : List (List ℚ)) (t : List ℚ) (c : Nat)
    (ht : t.length = L) :
    (l.foldl (fun (acc : List ℚ × Nat) vec =>
        if vec.length ≠ L then acc else (acc.1.zipWith (· + ·) vec, acc.2 + 1)) (t, c)).1.length = L ∧
    (l.foldl (fun (acc : List ℚ × Nat) vec =>
        if vec.length ≠ L then acc else (acc.1.zipWith (· + ·) vec, acc.2 + 1)) (t, c)).2
      = c + (l.filter (fun v => v.length = L)).length ∧
    ∀ i, i < L →
      (l.foldl (fun (acc : List ℚ × Nat) vec =>
          if vec.length ≠ L then acc else (acc.1.zipWith (· + ·) vec, acc.2 + 1)) (t, c)).1.getD i 0
        = t.getD i 0 + ((l.filter (fun v => v.length = L)).map (fun v => v.getD i 0)).sum := by
  induction l generalizing t c with
  | nil => simp [ht]
  | cons v l ih =>
    by_cases hv : v.length = L
    · have hz : (t.zipWith (· + ·) v).length = L := by
        simp [List.length_zipWith, ht, hv]
      obtain ⟨h1, h2, h3⟩ := ih (t.zipWith (· + ·) v) (c + 1) hz
      have hstep : ((v :: l).foldl (fun (acc : List ℚ × Nat) vec =>
            if vec.length ≠ L then acc else (acc.1.zipWith (· + ·) vec, acc.2 + 1)) (t, c))
          = (l.foldl (fun (acc : List ℚ × Nat) vec =>
            if vec.length ≠ L then acc else (acc.1.zipWith (· + ·) vec, acc.2 + 1))
              (t.zipWith (· + ·) v, c + 1)) := by
        simp [hv]
      have hfil : (v :: l).filter (fun v' => v'.length = L) =
          v :: l.filter (fun v' => v'.length = L) := by
        simp [List.filter_cons, hv]
      refine ⟨?_, ?_, ?_⟩
      · rw [hstep]; exact h1
      · rw [hstep, h2, hfil]
        simp
        omega
      · intro i hi
        have hzip : (t.zipWith (· + ·) v).getD i 0 = t.getD i 0 + v.getD i 0 := by
          have hit : i < t.length := ht ▸ hi
          have hiv : i < v.length := hv ▸ hi
          have hiz : i < (t.zipWith (· + ·) v).length := hz ▸ hi
          rw [List.getD_eq_getElem _ _ hiz, List.getD_eq_getElem _ _ hit,
            List.getD_eq_getElem _ _ hiv, List.getElem_zipWith]
        rw [hstep, h3 i hi, hzip, hfil]
        simp
        ring
    · obtain ⟨h1, h2, h3⟩ := ih t c ht
      have hstep : ((v :: l).foldl (fun (acc : List ℚ × Nat) vec =>
            if vec.length ≠ L then acc else (acc.1.zipWith (· + ·) vec, acc.2 + 1)) (t, c))
          = (l.foldl (fun (acc : List ℚ × Nat) vec =>
            if vec.length ≠ L then acc else (acc.1.zipWith (· + ·) vec, acc.2 + 1)) (t, c)) := by
        simp [hv]
      have hfil : (v :: l).filter (fun v' => v'.length = L) =
          l.filter (fun v' => v'.length = L) := by
        simp [List.filter_cons, hv]
      refine ⟨?_, ?_, ?_⟩
      · rw [hstep]; exact h1
      · rw [hstep, h2, hfil]
      · intro i hi
        rw [hstep, h3 i hi, hfil]

/-- Unfolding `_mean_vector` on a non-empty list. -/
theorem mean_vector_cons_eq (v₀ : List ℚ) (rest : List (List ℚ)) :
    mean_vector (v₀ :: rest) =
      (if ((v₀ :: rest).foldl (fun (acc : List ℚ × Nat) vec =>
          if vec.length ≠ v₀.length then acc else (acc.1.zipWith (· + ·) vec, acc.2 + 1))
          (List.replicate v₀.length 0, 0)).2 = 0 then none
       else some (((v₀ :: rest).foldl (fun (acc : List ℚ × Nat) vec =>
          if vec.length ≠ v₀.length then acc else (acc.1.zipWith (· + ·) vec, acc.2 + 1))
          (List.replicate v₀.length 0, 0)).1.map
            (fun val => val / ((((v₀ :: rest).foldl (fun (acc : List ℚ × Nat) vec =>
              if vec.length ≠ v₀.length then acc else (acc.1.zipWith (· + ·) vec, acc.2 + 1))
              (List.replicate v₀.length 0, 0)).2 : Nat) : ℚ)))) := rfl

/-- **C7.** `_mean_vector` returns `None` exactly on the empty input, and on
a non-empty input returns the coordinate-wise arithmetic mean over precisely
the vectors whose length matches the first vector's, the others being
silently excluded (the first vector always qualifies, so the result is
present). -/
theorem mean_vector_spec (vectors : List (List ℚ)) :
    (vectors = [] → mean_vector vectors = none) ∧
    ∀ v₀ rest, vectors = v₀ :: rest →
      ∃ m, mean_vector vectors = some m ∧ m.length = v₀.length ∧
        (vectors.filter (fun v => v.length = v₀.length)) ≠ [] ∧
        ∀ i, i < v₀.length →
          m.getD i 0 =
            ((vectors.filter (fun v => v.length = v₀.length)).map (fun v => v.getD i 0)).sum /
              ((vectors.filter (fun v => v.length = v₀.length)).length : ℚ) := by
  constructor
  · rintro rfl
    rfl
  · rintro v₀ rest rfl
    have hrep : (List.replicate v₀.length (0 : ℚ)).length = v₀.length :=
      List.length_replicate _ _
    obtain ⟨h1, h2, h3⟩ := mean_fold_invariant v₀.length (v₀ :: rest)
      (List.replicate v₀.length 0) 0 hrep
    have hfilter : ((v₀ :: rest).filter (fun v => v.length = v₀.length)) =
        v₀ :: rest.filter (fun v => v.length = v₀.length) := by
      simp [List.filter_cons]
    have hcount :
        ((v₀ :: rest).foldl (fun (acc : List ℚ × Nat) vec =>
          if vec.length ≠ v₀.length then acc else (acc.1.zipWith (· + ·) vec, acc.2 + 1))
          (List.replicate v₀.length 0, 0)).2 ≠ 0 := by
      rw [h2, hfilter]
      simp
    refine ⟨((v₀ :: rest).foldl (fun (acc : List ℚ × Nat) vec =>
          if vec.length ≠ v₀.length then acc else (acc.1.zipWith (· + ·) vec, acc.2 + 1))
          (List.replicate v₀.length 0, 0)).1.map
            (fun val => val / ((((v₀ :: rest).foldl (fun (acc : List ℚ × Nat) vec =>
              if vec.length ≠ v₀.length then acc else (acc.1.zipWith (· + ·) vec, acc.2 + 1))
              (List.replicate v₀.length 0, 0)).2 : Nat) : ℚ)), ?_, ?_, ?_, ?_⟩
    · rw [mean_vector_cons_eq, if_neg hcount]
    · simpa using h1
    · rw [hfilter]; simp
    · intro i hi
      have hzero : (List.replicate v₀.length (0 : ℚ)).getD i 0 = 0 := by
        rw [List.getD_eq_getElem _ _ (by simpa using hi)]
        simp
      have hli : i < ((v₀ :: rest).foldl (fun (acc : List ℚ × Nat) vec =>
          if vec.length ≠ v₀.length then acc else (acc.1.zipWith (· + ·) vec, acc.2 + 1))
          (List.replicate v₀.length 0, 0)).1.length := lt_of_lt_of_eq hi h1.symm
      rw [List.getD_eq_getElem _ _ (by simpa using hli), List.getElem_map,
        ← List.getD_eq_getElem _ 0 hli, h3 i hi, hzero, zero_add, h2]
      simp

/-! ## C8: favorites ordered by similarity -/

/-- `foldl max` returns a member that bounds every member. -/
theorem foldl_max_spec {α : Type} [LinearOrder α] (xs : List α) : ∀ x : α,
    xs.foldl max x ∈ x :: xs ∧ ∀ y ∈ x :: xs, y ≤ xs.foldl max x := by
  induction xs with
  | nil => intro x; simp
  | cons a xs ih =>
    intro x
    rw [List.foldl_cons]
    obtain ⟨hmem, hub⟩ := ih (max x a)
    constructor
    · rcases List.mem_cons.mp hmem with h | h
      · rw [h]
        rcases max_choice x a with hx | hx
        · rw [hx]
          exact List.mem_cons_self _ _
        · rw [hx]
          exact List.mem_cons_of_mem _ (List.mem_cons_self _ _)
      · exact List.mem_cons_of_mem _ (List.mem_cons_of_mem _ h)
    · intro y hy
      rcases List.mem_cons.mp hy with rfl | hy'
      · exact le_trans (le_max_left _ _) (hub _ (List.mem_cons_self _ _))
      · rcases List.mem_cons.mp hy' with rfl | hy''
        · exact le_trans (le_max_right _ _) (hub _ (List.mem_cons_self _ _))
        · exact hub _ (List.mem_cons_of_mem _ hy'')

/-- Python `max` on a list: absent only for the empty list, otherwise a
member bounding all members. -/
theorem pyMax_spec {α : Type} [LinearOrder α] (l : List α) :
    (pyMax l = none ↔ l = []) ∧
    ∀ m, pyMax l = some m → m ∈ l ∧ ∀ x ∈ l, x ≤ m := by
  cases l with
  | nil => exact ⟨by simp [pyMax], fun m hm => by simp [pyMax] at hm⟩
  | cons x xs =>
    refine ⟨by simp [pyMax], ?_⟩
    intro m hm
    obtain rfl : xs.foldl max x = m := by simpa [pyMax] using hm
    exact foldl_max_spec xs x

/-- Every entry the enrichment loop produces starts unflagged. -/
theorem enrich_favorites_is_top_false {α : Type} [LinearOrderedField α]
    (simFn : List ℚ → List ℚ → α) (pe : Option (List ℚ)) (membership : List Nat) :
    ∀ (favs : List FavRow) (entries : List (FavEntry α)),
      enrich_favorites simFn pe membership favs = .ok entries →
      ∀ f ∈ entries, f.is_top = false := by
  intro favs
  induction favs with
  | nil =>
    intro entries h f hf
    obtain rfl : ([] : List (FavEntry α)) = entries := by
      simpa [enrich_favorites] using h
    simp at hf
  | cons fav favs ih =>
    intro entries h f hf
    unfold enrich_favorites at h
    cases hp : parse_embedding fav.embedding with
    | error e => rw [hp] at h; exact absurd h (by simp)
    | ok favEmb =>
      rw [hp] at h
      cases hrest : enrich_favorites simFn pe membership favs with
      | error e => rw [hrest] at h; exact absurd h (by simp)
      | ok rest =>
        rw [hrest] at h
        obtain rfl : _ :: rest = entries := by simpa using h
        rcases List.mem_cons.mp hf with rfl | hf'
        · rfl
        · exact ih rest hrest f hf'

/-- The `is_top` pass characterised: on a list of unflagged entries it flags
exactly the entries whose similarity is present and ties the maximum present
similarity, it changes nothing else, and similarities are untouched. -/
theorem mark_top_spec {α : Type} [LinearOrderedField α] (L : List (FavEntry α))
    (hfalse : ∀ f ∈ L, f.is_top = false) :
    ((mark_top L).map (fun f => f.similarity) = L.map (fun f => f.similarity)) ∧
    ∀ f ∈ mark_top L, (f.is_top = true ↔
      ∃ v, f.similarity = some v ∧
        ∀ g ∈ mark_top L, ∀ w, g.similarity = some w → w ≤ v) := by
  unfold mark_top
  cases hm : pyMax (L.filterMap (fun f => f.similarity)) with
  | none =>
    have hempty : L.filterMap (fun f => f.similarity) = [] := ((pyMax_spec _).1).mp hm
    have hnone : ∀ f ∈ L, f.similarity = none := by
      intro f hf
      by_contra hne
      obtain ⟨v, hv⟩ := Option.ne_none_iff_exists'.mp hne
      have : v ∈ L.filterMap (fun f => f.similarity) :=
        List.mem_filterMap.mpr ⟨f, hf, hv⟩
      rw [hempty] at this
      simp at this
    refine ⟨rfl, ?_⟩
    intro f hf
    rw [hfalse f hf]
    constructor
    · intro h
      exact absurd h (by simp)
    · rintro ⟨v, hv, -⟩
      rw [hnone f hf] at hv
      exact absurd hv (by simp)
  | some m =>
    obtain ⟨hmem, hub⟩ := (pyMax_spec _).2 m hm
    have hsim : ∀ f : FavEntry α,
        (if f.similarity = some m then { f with is_top := true } else f).similarity
          = f.similarity := by
      intro f
      split <;> rfl
    refine ⟨?_, ?_⟩
    · rw [List.map_map]
      refine List.map_congr_left ?_
      intro f _
      exact hsim f
    · intro f hf
      rw [List.mem_map] at hf
      obtain ⟨f₀, hf₀, rfl⟩ := hf
      constructor
      · intro htop
        by_cases hs : f₀.similarity = some m
        · refine ⟨m, by rw [hsim, hs], ?_⟩
          intro g hg w hw
          rw [List.mem_map] at hg
          obtain ⟨g₀, hg₀, rfl⟩ := hg
          rw [hsim] at hw
          exact hub w (List.mem_filterMap.mpr ⟨g₀, hg₀, hw⟩)
        · rw [if_neg hs, hfalse f₀ hf₀] at htop
          exact absurd htop (by simp)
      · rintro ⟨v, hv, hvub⟩
        rw [hsim] at hv
        obtain ⟨g₀, hg₀, hgm⟩ := List.mem_filterMap.mp hmem
        have hmv : m ≤ v :=
          hvub ((fun f => if f.similarity = some m then { f with is_top := true } else f) g₀)
            (List.mem_map_of_mem _ hg₀) m ((hsim g₀).trans hgm)
        have hvm : v ≤ m := hub v (List.mem_filterMap.mpr ⟨f₀, hf₀, hv⟩)
        have : f₀.similarity = some m := by rw [hv, le_antisymm hvm hmv]
        rw [if_pos this]

/-- The two stable sort passes order by similarity descending (absent as
`-1`), ties by case-insensitive name ascending. -/
theorem fav_sort_passes_pairwise {α : Type} [LinearOrderedField α]
    (l : List (FavEntry α)) :
    (fav_sort_passes l).Pairwise (fun f g =>
      fav_sim_key g < fav_sim_key f ∨
        (fav_sim_key f = fav_sim_key g ∧ f.name.toLower ≤ g.name.toLower)) := by
  unfold fav_sort_passes
  haveI : IsTotal (FavEntry α) (fun a b => a.name.toLower ≤ b.name.toLower) :=
    ⟨fun a b => le_total _ _⟩
  haveI : IsTrans (FavEntry α) (fun a b => a.name.toLower ≤ b.name.toLower) :=
    ⟨fun a b c hab hbc => le_trans hab hbc⟩
  have h1 : (l.insertionSort (fun a b => a.name.toLower ≤ b.name.toLower)).Pairwise
      (fun f g => f.name.toLower ≤ g.name.toLower) :=
    List.sorted_insertionSort _ l
  have h2 := insertionSort_pairwise_fused
    (fun a b => fav_sim_key b ≤ fav_sim_key a)
    (fun a b => le_total _ _)
    (fun hab hbc => le_trans hbc hab)
    (fun f g => f.name.toLower ≤ g.name.toLower) _ h1
  refine h2.imp ?_
  rintro a b ⟨hba, himp⟩
  rcases lt_or_eq_of_le hba with h | h
  · exact Or.inl h
  · exact Or.inr ⟨h.symm, himp (le_of_eq h.symm)⟩

/-- The two sort passes permute their input. -/
theorem fav_sort_passes_perm {α : Type} [LinearOrderedField α]
    (l : List (FavEntry α)) : (fav_sort_passes l).Perm l :=
  (List.perm_insertionSort _ _).trans (List.perm_insertionSort _ _)

/-- **C8.** `favorites_with_similarity` returns the enriched entries ordered
primarily by similarity descending with absent treated as `-1` for
comparison, secondarily by case-insensitive name ascending; `is_top` is true
on exactly the entries whose similarity ties the maximum computed
similarity, and on no entry when none was computed. -/
theorem favorites_with_similarity_spec {α : Type} [LinearOrderedField α]
    (simFn : List ℚ → List ℚ → α) (favs : List FavRow) (paper? : Option PyDict)
    (membership : List Nat) (r : List (FavEntry α))
    (hr : favorites_with_similarity simFn favs paper? membership = .ok r) :
    (∃ e, favorites_enriched simFn favs paper? membership = .ok e ∧
      r = fav_sort_passes e ∧ r.Perm e) ∧
    r.Pairwise (fun f g =>
      fav_sim_key g < fav_sim_key f ∨
        (fav_sim_key f = fav_sim_key g ∧ f.name.toLower ≤ g.name.toLower)) ∧
    (∀ f ∈ r, f.is_top = true ↔
      ∃ v, f.similarity = some v ∧ ∀ g ∈ r, ∀ w, g.similarity = some w → w ≤ v) ∧
    ((∀ f ∈ r, f.similarity = none) → ∀ f ∈ r, f.is_top = false) := by
  unfold favorites_with_similarity at hr
  cases he : favorites_enriched simFn favs paper? membership with
  | error e =>
    rw [he] at hr
    exact absurd hr (by simp [bind, Except.bind])
  | ok e =>
    rw [he] at hr
    obtain rfl : fav_sort_passes e = r := by
      simpa [bind, Except.bind, pure, Except.pure] using hr
    have hperm := fav_sort_passes_perm e
    obtain ⟨entries, pe, hpe, hen, hmark⟩ :
        ∃ (entries : List (FavEntry α)) (pe : Option (List ℚ)),
          (match paper? with
            | some paper => parse_embedding (dgetD paper "embedding")
            | none => .ok (none : Option (List ℚ))) = .ok pe ∧
          enrich_favorites simFn pe membership favs = .ok entries ∧
          e = mark_top entries := by
      unfold favorites_enriched at he
      cases hp : (match paper? with
          | some paper => parse_embedding (dgetD paper "embedding")
          | none => .ok (none : Option (List ℚ))) with
      | error err =>
        rw [hp] at he
        exact absurd (show (Except.error err : Except String (List (FavEntry α)))
          = Except.ok e from he) (by simp)
      | ok pe =>
        rw [hp] at he
        have he2 : (match enrich_favorites simFn pe membership favs with
            | Except.error err => Except.error err
            | Except.ok enriched => Except.ok (mark_top enriched))
            = (Except.ok e : Except String (List (FavEntry α))) := he
        cases hq : enrich_favorites simFn pe membership favs with
        | error err =>
          rw [hq] at he2
          exact absurd (show (Except.error err : Except String (List (FavEntry α)))
            = Except.ok e from he2) (by simp)
        | ok entries =>
          rw [hq] at he2
          have h3 : Except.ok (mark_top entries)
              = (Except.ok e : Except String (List (FavEntry α))) := he2
          exact ⟨entries, pe, rfl, hq, (Except.ok.inj h3).symm⟩
    have hfalse : ∀ f ∈ entries, f.is_top = false :=
      enrich_favorites_is_top_false simFn pe membership favs entries hen
    obtain ⟨-, htop⟩ := mark_top_spec entries hfalse
    have hmem : ∀ f, f ∈ fav_sort_passes e ↔ f ∈ e := fun f => hperm.mem_iff
    refine ⟨⟨e, rfl, rfl, hperm⟩, fav_sort_passes_pairwise e, ?_, ?_⟩
    · intro f hf
      rw [hmark] at *
      have := htop f ((hmem f).mp hf)
      refine this.trans ?_
      constructor
      · rintro ⟨v, hv, hub⟩
        exact ⟨v, hv, fun g hg w hw => hub g ((hmem g).mp hg) w hw⟩
      · rintro ⟨v, hv, hub⟩
        exact ⟨v, hv, fun g hg w hw => hub g ((hmem g).mpr hg) w hw⟩
    · intro hall f hf
      have h := htop f (by rw [← hmark]; exact (hmem f).mp hf)
      by_contra hne
      have htrue : f.is_top = true := by
        cases hb : f.is_top
        · exact absurd hb hne
        · rfl
      obtain ⟨v, hv, -⟩ := (hmark ▸ h).mp htrue
      rw [hall f hf] at hv
      exact absurd hv (by simp)

/-- Witness for C8: the full specification at a one-favorite instance. -/
theorem favorites_with_similarity_spec_witness :
    (∃ e, favorites_enriched (fun _ _ => (0 : ℚ)) [⟨1, "b", vnone⟩] none [1] = .ok e ∧
      [(⟨1, "b", true, none, false⟩ : FavEntry ℚ)] = fav_sort_passes e ∧
      ([(⟨1, "b", true, none, false⟩ : FavEntry ℚ)]).Perm e) ∧
    ([(⟨1, "b", true, none, false⟩ : FavEntry ℚ)]).Pairwise (fun f g =>
      fav_sim_key g < fav_sim_key f ∨
        (fav_sim_key f = fav_sim_key g ∧ f.name.toLower ≤ g.name.toLower)) ∧
    (∀ f ∈ [(⟨1, "b", true, none, false⟩ : FavEntry ℚ)], f.is_top = true ↔
      ∃ v, f.similarity = some v ∧
        ∀ g ∈ [(⟨1, "b", true, none, false⟩ : FavEntry ℚ)],
          ∀ w, g.similarity = some w → w ≤ v) ∧
    ((∀ f ∈ [(⟨1, "b", true, none, false⟩ : FavEntry ℚ)], f.similarity = none) →
      ∀ f ∈ [(⟨1, "b", true, none, false⟩ : FavEntry ℚ)], f.is_top = false) :=
  favorites_with_similarity_spec (fun _ _ => (0 : ℚ)) [⟨1, "b", vnone⟩] none [1]
    [⟨1, "b", true, none, false⟩] rfl

/-! ## C1: empty similarity-source selection -/

/-- Restricting the favorites query to all of the user's own favorite ids is
no restriction. -/
theorem get_favorite_embeddings_all (favs : List FavRow) :
    get_favorite_embeddings favs
        (if (favs.map (fun f => f.id)).isEmpty then none else some (favs.map (fun f => f.id)))
      = get_favorite_embeddings favs none := by
  by_cases he : (favs.map (fun f => f.id)).isEmpty
  · rw [if_pos he]
  · rw [if_neg he]
    show collect_embeddings
        (if (favs.map (fun f => f.id)).isEmpty = true then favs
         else favs.filter (fun f => (favs.map (fun g => g.id)).contains f.id))
      = collect_embeddings favs
    rw [if_neg he]
    have hrows : favs.filter (fun f => (favs.map (fun g => g.id)).contains f.id) = favs := by
      apply List.filter_eq_self.mpr
      intro f hf
      have hm : f.id ∈ favs.map (fun g => g.id) := List.mem_map_of_mem _ hf
      simpa using hm
    rw [hrows]

/-- **C1 (amended).** When the resolved similarity-source selection of a user
*with* a persisted filter record is empty, the feed behaves exactly as for a
user with *no* record: `selected_sim_favorites or None` collapses the empty
selection, so `get_favorite_embeddings` uses **all** of the user's favorites
and similarity is computed, not suppressed. -/
theorem empty_selection_uses_all_favorites (papers : List SimPaper) (favs : List FavRow)
    (requestArgs : List String) (saved : List Nat)
    (h : resolve_sim_favorites requestArgs saved (favs.map (fun f => f.id)) true = []) :
    feed_similarity_stage papers favs requestArgs saved true
      = feed_similarity_stage papers favs requestArgs saved false := by
  have hres : resolve_sim_favorites requestArgs saved (favs.map (fun f => f.id)) false
      = favs.map (fun f => f.id) := by
    unfold resolve_sim_favorites at h ⊢
    simp only [not_true, and_false, if_false] at h
    simp only [h]
    have hc : (([] : List Nat).isEmpty = true ∧ ¬false = true) := by decide
    rw [if_pos hc]
  simp only [feed_similarity_stage]
  rw [h, hres]
  rw [show (if ([] : List Nat).isEmpty = true then (none : Option (List Nat)) else some [])
      = none from rfl]
  rw [get_favorite_embeddings_all favs]

/-- Witness for C1: the two pipelines agree at a concrete user state with an
empty persisted selection. -/
theorem empty_selection_uses_all_favorites_witness :
    feed_similarity_stage [] [⟨1, "a", vnone⟩] [] [] true
      = feed_similarity_stage [] [⟨1, "a", vnone⟩] [] [] false :=
  empty_selection_uses_all_favorites [] [⟨1, "a", vnone⟩] [] [] rfl

/-- **C1 (counterexample).** A user with a persisted filter record whose
resolved selection is empty still gets similarity computed: with one favorite
carrying an embedding and one paper carrying one, the feed attaches a
similarity score — the claim says it must stay absent. -/
theorem empty_selection_similarity_computed_cex :
    (feed_similarity_stage [⟨vlist [vnum 1], none⟩] [⟨1, "a", vlist [vnum 1]⟩]
        [] [] true).map (fun ps => ps.map (fun p => p.similarity.isSome))
      = .ok [true] := rfl

/-! ## C9: the feed view and the reading position -/

/-- A successfully classified digit character round-trips. -/
theorem digit?_spec (c : Char) (n : Nat) (h : digit? c = some n) :
    digitChar n = c ∧ n ≤ 9 := by
  unfold digit? at h
  split_ifs at h with h0 h1 h2 h3 h4 h5 h6 h7 h8 h9
  · obtain rfl := Option.some.inj h
    exact ⟨by rw [h0]; decide, by omega⟩
  · obtain rfl := Option.some.inj h
    exact ⟨by rw [h1]; decide, by omega⟩
  · obtain rfl := Option.some.inj h
    exact ⟨by rw [h2]; decide, by omega⟩
  · obtain rfl := Option.some.inj h
    exact ⟨by rw [h3]; decide, by omega⟩
  · obtain rfl := Option.some.inj h
    exact ⟨by rw [h4]; decide, by omega⟩
  · obtain rfl := Option.some.inj h
    exact ⟨by rw [h5]; decide, by omega⟩
  · obtain rfl := Option.some.inj h
    exact ⟨by rw [h6]; decide, by omega⟩
  · obtain rfl := Option.some.inj h
    exact ⟨by rw [h7]; decide, by omega⟩
  · obtain rfl := Option.some.inj h
    exact ⟨by rw [h8]; decide, by omega⟩
  · obtain rfl := Option.some.inj h
    exact ⟨by rw [h9]; decide, by omega⟩

/-- A parsed ISO date string has exactly ten characters. -/
theorem parseIsoDateChars_shape (cs : List Char) (d : PyDate)
    (h : parseIsoDateChars cs = some d) :
    ∃ a1 a2 a3 a4 a5 a6 a7 a8 a9 a10,
      cs = [a1, a2, a3, a4, a5, a6, a7, a8, a9, a10] := by
  rcases cs with _ | ⟨a1, _ | ⟨a2, _ | ⟨a3, _ | ⟨a4, _ | ⟨a5, _ | ⟨a6, _ | ⟨a7,
    _ | ⟨a8, _ | ⟨a9, _ | ⟨a10, _ | ⟨a11, rest⟩⟩⟩⟩⟩⟩⟩⟩⟩⟩⟩
  all_goals first
    | exact ⟨a1, a2, a3, a4, a5, a6, a7, a8, a9, a10, rfl⟩
    | exact absurd h (by simp [parseIsoDateChars])

/-- Parsing a ten-character candidate pins down every character: the parse
result serialises back to the input. -/
theorem parseIsoDateChars_roundtrip (c1 c2 c3 c4 c5 c6 c7 c8 h1 h2 : Char) (d : PyDate)
    (h : parseIsoDateChars [c1, c2, c3, c4, h1, c5, c6, h2, c7, c8] = some d) :
    (isoFormat d).data = [c1, c2, c3, c4, h1, c5, c6, h2, c7, c8] := by
  simp only [parseIsoDateChars] at h
  split_ifs at h with hdash
  · obtain ⟨hd1, hd2⟩ := hdash
    cases ha : digit? c1 with
    | none =>
      rw [ha] at h
      exact absurd h (by simp)
    | some a =>
    rw [ha] at h
    cases hb : digit? c2 with
    | none =>
      rw [hb] at h
      exact absurd h (by simp)
    | some b =>
    rw [hb] at h
    cases hc : digit? c3 with
    | none =>
      rw [hc] at h
      exact absurd h (by simp)
    | some c =>
    rw [hc] at h
    cases hd : digit? c4 with
    | none =>
      rw [hd] at h
      exact absurd h (by simp)
    | some dd =>
    rw [hd] at h
    cases he : digit? c5 with
    | none =>
      rw [he] at h
      exact absurd h (by simp)
    | some e =>
    rw [he] at h
    cases hf : digit? c6 with
    | none =>
      rw [hf] at h
      exact absurd h (by simp)
    | some f =>
    rw [hf] at h
    cases hg : digit? c7 with
    | none =>
      rw [hg] at h
      exact absurd h (by simp)
    | some g =>
    rw [hg] at h
    cases hh : digit? c8 with
    | none =>
      rw [hh] at h
      exact absurd h (by simp)
    | some hn =>
    rw [hh] at h
    simp only [] at h
    split_ifs at h with hvalid
    · obtain rfl : (⟨a * 1000 + b * 100 + c * 10 + dd, e * 10 + f, g * 10 + hn⟩ : PyDate) = d :=
        Option.some.inj h
      obtain ⟨ha1, ha2⟩ := digit?_spec c1 a ha
      obtain ⟨hb1, hb2⟩ := digit?_spec c2 b hb
      obtain ⟨hc1, hc2⟩ := digit?_spec c3 c hc
      obtain ⟨hd1', hd2'⟩ := digit?_spec c4 dd hd
      obtain ⟨he1, he2⟩ := digit?_spec c5 e he
      obtain ⟨hf1, hf2⟩ := digit?_spec c6 f hf
      obtain ⟨hg1, hg2⟩ := digit?_spec c7 g hg
      obtain ⟨hh1, hh2⟩ := digit?_spec c8 hn hh
      unfold isoFormat
      have e1 : (a * 1000 + b * 100 + c * 10 + dd) / 1000 % 10 = a := by omega
      have e2 : (a * 1000 + b * 100 + c * 10 + dd) / 100 % 10 = b := by omega
      have e3 : (a * 1000 + b * 100 + c * 10 + dd) / 10 % 10 = c := by omega
      have e4 : (a * 1000 + b * 100 + c * 10 + dd) % 10 = dd := by omega
      have e5 : (e * 10 + f) / 10 % 10 = e := by omega
      have e6 : (e * 10 + f) % 10 = f := by omega
      have e7 : (g * 10 + hn) / 10 % 10 = g := by omega
      have e8 : (g * 10 + hn) % 10 = hn := by omega
      simp only [e1, e2, e3, e4, e5, e6, e7, e8, ha1, hb1, hc1, hd1', he1, hf1, hg1, hh1,
        hd1, hd2]

/-- A parsed date serialises back to the very string parsed. -/
theorem parseIsoDate_roundtrip (s : String) (d : PyDate)
    (h : parseIsoDate s = some d) : isoFormat d = s := by
  unfold parseIsoDate at h
  obtain ⟨a1, a2, a3, a4, a5, a6, a7, a8, a9, a10, hs⟩ := parseIsoDateChars_shape _ _ h
  rw [hs] at h
  have hdata := parseIsoDateChars_roundtrip a1 a2 a3 a4 a6 a7 a9 a10 a5 a8 d h
  obtain ⟨sd⟩ := s
  simp only [] at hs
  rw [show isoFormat d = ⟨(isoFormat d).data⟩ from rfl, hdata, ← hs]

/-- **C9 (amended).** The feed view's filter persistence (all three
reading-position arguments omitted) keeps `last_paper_id` exactly, keeps
`last_position` whenever one was stored (an absent one is written as 0), and
keeps `last_date` whenever it is absent or a well-formed ISO date — a
malformed stored `last_date` (reachable through the `/history` endpoint's
client-supplied date) is replaced by `NULL`, see the counterexample. -/
theorem save_filters_preserves_reading_position (row : LastRow) :
    (save_filters_last (some row) none none none).last_paper_id = row.last_paper_id ∧
    (save_filters_last (some row) none none none).last_position
      = some (row.last_position.getD 0) ∧
    (row.last_date = none → (save_filters_last (some row) none none none).last_date = none) ∧
    (∀ s d, row.last_date = some s → parseIsoDate s = some d →
      (save_filters_last (some row) none none none).last_date = row.last_date) := by
  refine ⟨rfl, rfl, ?_, ?_⟩
  · intro h
    simp [save_filters_last, load_filters_last, parse_date_value, h]
  · intro s d hs hd
    have hne : s ≠ "" := by
      intro hcon
      rw [hcon] at hd
      exact absurd hd (by simp [parseIsoDate, parseIsoDateChars])
    have hiso : isoFormat d = s := parseIsoDate_roundtrip s d hd
    simp [save_filters_last, load_filters_last, parse_date_value, hs, hne, hd, hiso]

/-- Witness for C9: preservation at a concrete well-formed row. -/
theorem save_filters_preserves_witness :
    (save_filters_last (some ⟨some "2024-01-05", some "p1", some 5⟩)
        none none none).last_paper_id = some "p1" ∧
    (save_filters_last (some ⟨some "2024-01-05", some "p1", some 5⟩)
        none none none).last_position = some ((some (5 : Int)).getD 0) ∧
    (save_filters_last (some ⟨some "2024-01-05", some "p1", some 5⟩)
        none none none).last_date = some "2024-01-05" := by
  have h := save_filters_preserves_reading_position ⟨some "2024-01-05", some "p1", some 5⟩
  exact ⟨h.1, h.2.1, h.2.2.2 "2024-01-05" ⟨2024, 1, 5⟩ rfl (by rfl)⟩

/-- **C9 (counterexample).** With a malformed persisted `last_date` — which
the separate reading-history operation persists verbatim from the request —
the feed view's save does *not* leave the field unchanged: it becomes
`NULL`. -/
theorem save_filters_clobbers_malformed_date_cex :
    (save_filters_last (some ⟨some "garbage", some "p1", some 5⟩)
        none none none).last_date = none ∧
    (⟨some "garbage", some "p1", some 5⟩ : LastRow).last_date = some "garbage" :=
  ⟨rfl, rfl⟩

/-- Witness for C7: the mean-vector specification at a concrete input. -/
theorem mean_vector_spec_witness :
    ∃ m, mean_vector [[(1 : ℚ), 2], [3, 4]] = some m ∧
      m.length = ([(1 : ℚ), 2] : List ℚ).length ∧
      (([[(1 : ℚ), 2], [3, 4]] : List (List ℚ)).filter
        (fun v => v.length = ([(1 : ℚ), 2] : List ℚ).length)) ≠ [] ∧
      ∀ i, i < ([(1 : ℚ), 2] : List ℚ).length →
        m.getD i 0 =
          ((([[(1 : ℚ), 2], [3, 4]] : List (List ℚ)).filter
              (fun v => v.length = ([(1 : ℚ), 2] : List ℚ).length)).map
            (fun v => v.getD i 0)).sum /
          ((([[(1 : ℚ), 2], [3, 4]] : List (List ℚ)).filter
              (fun v => v.length = ([(1 : ℚ), 2] : List ℚ).length)).length : ℚ) :=
  (mean_vector_spec [[1, 2], [3, 4]]).2 [1, 2] [[3, 4]] rfl

end ArxivDaily
